import Mathlib

/-!
Verification development for the StateRAG backend: a shallow embedding of
the versioned artifact store (`src/backend/state_rag_manager.py`), the
validation rule chain (`src/backend/validator.py`), the orchestrator's
authority pre-check (`src/backend/orchestrator.py`), the Gemini retry loop
(`src/backend/llm_adapter.py`) and the generator-output parser
(`src/backend/llm_output_parser.py`), together with proofs about them.

Machine integers do not occur (Python ints are unbounded; versions and
timestamps are modelled as `Nat`).  Python `datetime.utcnow()` is modelled
by an explicit `now : Nat` argument.  Persistence (`_persist`) only writes
the in-memory list to disk, so a store state is modelled as the plain
`List Artifact` that `self.artifacts` holds.
-/

namespace StateRag

/-- `ArtifactType` from `state_rag_enums.py`. -/
inductive ArtifactType where
  | component
  | page
  | layout
  | config
deriving DecidableEq, Repr

/-- `ArtifactSource` from `state_rag_enums.py`. -/
inductive ArtifactSource where
  | user_modified
  | ai_generated
  | ai_modified
  | system_generated
deriving DecidableEq, Repr

/-- `Artifact` from `artifact.py`.  Timestamps are `Nat` stand-ins for
`datetime`; `framework`/`styling` are carried along unchanged. -/
structure Artifact where
  artifact_id : String
  type : ArtifactType
  name : String
  file_path : String
  content : String
  language : String
  version : Nat
  is_active : Bool
  source : ArtifactSource
  dependencies : List String
  framework : Option String
  styling : Option String
  created_at : Nat
  updated_at : Nat
deriving DecidableEq, Repr

/-- `ProposedArtifact` from `validator.py`. -/
structure ProposedArtifact where
  file_path : String
  content : String
  language : String
deriving DecidableEq, Repr

/-- `ValidationResult` from `validator.py`. -/
structure ValidationResult where
  ok : Bool
  artifacts : Option (List ProposedArtifact)
  reason : Option String
deriving DecidableEq, Repr

/-! ### Python string primitives

Python `str.endswith`, slicing `s[:-n]` and the `in` substring test are
modelled over the character list `String.data`, which matches Python's
code-point view of a `str`. -/

/-- Python `s.endswith(suffix)`. -/
def pyEndsWith (s suffix : String) : Bool :=
  suffix.data.isSuffixOf s.data

/-- Python `s[:-n]` for `0 < n ≤ len(s)` (drop the last `n` characters). -/
def pyDropRight (s : String) (n : Nat) : String :=
  ⟨s.data.take (s.data.length - n)⟩

/-- Python `s.strip()` with no argument: remove leading and trailing
whitespace. -/
def pyStrip (s : String) : String :=
  ⟨((s.data.dropWhile Char.isWhitespace).reverse.dropWhile Char.isWhitespace).reverse⟩

/-- Python `s.lower()` (code-point-wise lowering; the constants compared in
the source are ASCII). -/
def pyLower (s : String) : String :=
  ⟨s.data.map Char.toLower⟩

/-- Python `pat in s` (substring containment). -/
def pyContains (s pat : String) : Bool :=
  (s.data.tails.filter (fun t => pat.data.isPrefixOf t)).length ≠ 0

/-! ### Artifact store: commit and retention cleanup
(`state_rag_manager.py`, `StateRAGManager.commit` and
`StateRAGManager.cleanup_old_versions`). -/

/-- The "active at file path `p`" test used by `commit` and by the
single-active-version invariant. -/
def pathActiveB (p : String) (a : Artifact) : Bool :=
  a.file_path == p && a.is_active

/-- The `active_versions` list computed at the top of `commit`: all
currently active artifacts at the candidate's file path. -/
def activeVersionsAt (arts : List Artifact) (path : String) : List Artifact :=
  arts.filter (pathActiveB path)

/-- The authority-enforcement loop of `commit`: a violation exists when some
active artifact at the path is `user_modified` while the candidate is not. -/
def authorityViolation (actives : List Artifact) (cand : Artifact) : Bool :=
  actives.any (fun old =>
    old.source == ArtifactSource.user_modified
      && !(cand.source == ArtifactSource.user_modified))

/-- Python dict insertion order keeps the first occurrence of each key:
first-occurrence deduplication of a key list. -/
def firstDedup : List String → List String
  | [] => []
  | x :: xs => x :: firstDedup (xs.filter (fun y => !(y == x)))
termination_by l => l.length
decreasing_by
  simp only [List.length_cons]
  exact Nat.lt_succ_of_le (List.length_filter_le _ _)

/-- `StateRAGManager.cleanup_old_versions`: group artifacts by file path (in
first-occurrence path order, as a Python dict of lists), sort each group by
version descending (Python's stable `sorted(..., reverse=True)`), and keep
all active versions plus the `keep` most recent inactive versions.
`keepForPath` is the body of the `for path, versions in by_path.items()`
loop for one path. -/
def keepForPath (arts : List Artifact) (keep : Nat) (p : String) : List Artifact :=
  let versions := arts.filter (fun a => a.file_path == p)
  let sorted := versions.mergeSort (fun a b => b.version ≤ a.version)
  sorted.filter (fun v => v.is_active)
    ++ (sorted.filter (fun v => !v.is_active)).take keep

/-- `StateRAGManager.cleanup_old_versions` assembles `to_keep` by iterating
the per-path groups in first-occurrence path order. -/
def cleanupOldVersions (arts : List Artifact) (keep : Nat) : List Artifact :=
  (firstDedup (arts.map (fun a => a.file_path))).flatMap (keepForPath arts keep)

/-- `StateRAGManager.commit`.  Returns the store contents after the call
together with the call's outcome: `Except.error` models the `ValueError`
raised by the authority check, which in the source happens before any
mutation of `self.artifacts`, so the returned store is the input store.
On success the candidate is assigned `max(active versions) + 1` (or 1),
all previously active artifacts at the path are deactivated, the candidate
is appended, and every 10th commit runs retention cleanup with `keep = 5`. -/
def commit (arts : List Artifact) (cand : Artifact) (now : Nat) :
    List Artifact × Except String Artifact :=
  let actives := activeVersionsAt arts cand.file_path
  if authorityViolation actives cand then
    (arts, .error ("Cannot override user-modified artifact: " ++ cand.file_path))
  else
    let newVersion :=
      if actives.isEmpty then 1
      else (actives.map (fun a => a.version)).foldl max 0 + 1
    let deactivated := arts.map (fun a =>
      if a.file_path == cand.file_path && a.is_active then
        { a with is_active := false, updated_at := now }
      else a)
    let newArt := { cand with version := newVersion, is_active := true, updated_at := now }
    let appended := deactivated ++ [newArt]
    let final :=
      if appended.length % 10 == 0 then cleanupOldVersions appended 5 else appended
    (final, .ok newArt)

/-- The single-active-version-per-path store invariant: for every file path,
at most one active artifact exists. -/
def AtMostOneActivePerPath (arts : List Artifact) : Prop :=
  ∀ p : String, (arts.filter (pathActiveB p)).length ≤ 1

/-! ### Python dict primitives

A Python `dict` keyed by strings is modelled as an insertion-ordered
association list; `d[k] = v` keeps the position of an existing key and
appends a fresh one, and lookup returns the last value written. -/

/-- Python `k in d`. -/
def pyDictHasKey {α : Type} (d : List (String × α)) (k : String) : Bool :=
  d.any (fun kv => kv.1 == k)

/-- Python `d.get(k)` / `d[k]`: the value most recently written for `k`. -/
def pyDictGet {α : Type} (d : List (String × α)) (k : String) : Option α :=
  (d.reverse.find? (fun kv => kv.1 == k)).map (fun kv => kv.2)

/-- Python `d[k] = v`. -/
def pyDictInsert {α : Type} (d : List (String × α)) (k : String) (v : α) :
    List (String × α) :=
  if d.any (fun kv => kv.1 == k) then
    d.map (fun kv => if kv.1 == k then (kv.1, v) else kv)
  else d ++ [(k, v)]

/-! ### Validation chain (`validator.py`). -/

/-- `_is_allowed` from `validator.py`. -/
def isAllowed (file_path : String) (allowed_paths : List String) : Bool :=
  allowed_paths.contains "*" || allowed_paths.contains file_path

/-- A failed `ValidationResult` (Python `ValidationResult(ok=False, reason=r)`). -/
def mkFail (reason : String) : ValidationResult := ⟨false, none, some reason⟩

/-- A passing `ValidationResult` with no payload (Python `ValidationResult(ok=True)`). -/
def mkPass : ValidationResult := ⟨true, none, none⟩

/-- `SyntaxValidator._ext_for_lang`. -/
def extForLang (lang : String) : String :=
  if lang == "tsx" then ".tsx"
  else if lang == "ts" then ".ts"
  else if lang == "js" then ".js"
  else if lang == "json" then ".json"
  else ""

/-- The first reason the `SyntaxValidator` loop body would reject a single
proposed artifact, if any. -/
def syntaxFailure (p : ProposedArtifact) : Option String :=
  if pyStrip p.content == "" then some ("Empty content for " ++ p.file_path)
  else if !(pyEndsWith p.file_path (extForLang p.language)) then
    some ("Language/file mismatch for " ++ p.file_path)
  else none

/-- `SyntaxValidator.check`: first failing artifact short-circuits. -/
def syntaxCheck (proposed : List ProposedArtifact)
    (_active : List (String × Artifact)) (_allowed : List String) : ValidationResult :=
  match proposed.findSome? syntaxFailure with
  | some r => mkFail r
  | none => mkPass

/-- The `AuthorityValidator` loop condition for one proposed artifact: its
path has an active artifact tagged `user_modified` and is not allowed. -/
def authorityFailure (active : List (String × Artifact)) (allowed : List String)
    (p : ProposedArtifact) : Bool :=
  match pyDictGet active p.file_path with
  | some old =>
      old.source == ArtifactSource.user_modified && !(isAllowed p.file_path allowed)
  | none => false

/-- `AuthorityValidator.check`: first failing artifact short-circuits. -/
def authorityCheck (proposed : List ProposedArtifact)
    (active : List (String × Artifact)) (allowed : List String) : ValidationResult :=
  match proposed.find? (authorityFailure active allowed) with
  | some p => mkFail ("Unauthorized modification of user file: " ++ p.file_path
      ++ ". User must explicitly allow this file.")
  | none => mkPass

/-- `ScopeValidator.check`: first out-of-scope artifact short-circuits. -/
def scopeCheck (proposed : List ProposedArtifact)
    (_active : List (String × Artifact)) (allowed : List String) : ValidationResult :=
  match proposed.find? (fun p => !(isAllowed p.file_path allowed)) with
  | some p => mkFail ("Out-of-scope modification: " ++ p.file_path)
  | none => mkPass

/-- The `ConsistencyValidator` loop with its `seen` set. -/
def consistencyLoop (seen : List String) : List ProposedArtifact → ValidationResult
  | [] => mkPass
  | p :: rest =>
    if seen.contains p.file_path then
      mkFail ("Duplicate artifact for " ++ p.file_path)
    else consistencyLoop (p.file_path :: seen) rest

/-- `ConsistencyValidator.check`. -/
def consistencyCheck (proposed : List ProposedArtifact)
    (_active : List (String × Artifact)) (_allowed : List String) : ValidationResult :=
  consistencyLoop [] proposed

/-- The dynamic rule list built in `Validator.__init__`, in source order. -/
def ruleChecks :
    List (List ProposedArtifact → List (String × Artifact) → List String → ValidationResult) :=
  [syntaxCheck, authorityCheck, scopeCheck, consistencyCheck]

/-- The rule loop of `Validator.validate`: the first failing rule's result is
returned; when every rule passes, the proposed batch is returned unchanged. -/
def runRules
    (rules : List (List ProposedArtifact → List (String × Artifact) → List String → ValidationResult))
    (proposed : List ProposedArtifact) (active : List (String × Artifact))
    (allowed : List String) : ValidationResult :=
  match rules with
  | [] => ⟨true, some proposed, none⟩
  | r :: rest =>
    let res := r proposed active allowed
    if res.ok then runRules rest proposed active allowed else res

/-- The `active_lookup` dict built by `Validator.validate`. -/
def buildActiveLookup (arts : List Artifact) : List (String × Artifact) :=
  (arts.filter (fun a => a.is_active)).map (fun a => (a.file_path, a))

/-- `Validator.validate`. -/
def validate (proposed : List ProposedArtifact) (active_artifacts : List Artifact)
    (allowed_paths : List String) : ValidationResult :=
  runRules ruleChecks proposed (buildActiveLookup active_artifacts) allowed_paths

/-! ### Orchestrator authority pre-check (`orchestrator.py`,
`Orchestrator._pre_validate_authority`). -/

/-- `Orchestrator._pre_validate_authority`: returns `.error` exactly when the
source raises `ValueError`.  With `"*"` allowed it returns at once; otherwise
it rejects when any artifact of the retrieved active set is `user_modified`
with a path outside `allowed_paths`, regardless of any proposed batch. -/
def preValidateAuthority (active_artifacts : List Artifact)
    (allowed_paths : List String) : Except String Unit :=
  if allowed_paths.contains "*" then .ok ()
  else
    let user_protected := active_artifacts.filter (fun a =>
      a.source == ArtifactSource.user_modified && !(allowed_paths.contains a.file_path))
    if user_protected.isEmpty then .ok ()
    else .error ("Cannot modify user-protected files. These files are marked as "
      ++ "user_modified but not in allowed_paths: "
      ++ String.intercalate ", " (user_protected.map (fun a => a.file_path))
      ++ ". Add them to allowed_paths to enable AI modification.")

/-! ### Dependency expansion (`state_rag_manager.py`,
`StateRAGManager._expand_dependencies`). -/

/-- The `lookup` dict of `_expand_dependencies`: active store artifacts
keyed by `artifact_id`. -/
def activeLookupById (storeArts : List Artifact) : List (String × Artifact) :=
  (storeArts.filter (fun a => a.is_active)).map (fun a => (a.artifact_id, a))

/-- The `result` dict's initialisation `{a.artifact_id: a for a in artifacts}`. -/
def pyDictOfList (l : List Artifact) : List (String × Artifact) :=
  l.foldl (fun d a => pyDictInsert d a.artifact_id a) []

/-- The inner `for dep_id in current.dependencies` loop: a dependency id that
is a key of `lookup` and not yet in `result` is added to `result` and
enqueued; missing or already-present ids are skipped. -/
def processDeps (lookup : List (String × Artifact)) (deps : List String)
    (result : List (String × Artifact)) (queue : List Artifact) :
    List (String × Artifact) × List Artifact :=
  match deps with
  | [] => (result, queue)
  | d :: rest =>
    match pyDictGet lookup d with
    | some dep =>
      if pyDictHasKey result d then processDeps lookup rest result queue
      else processDeps lookup rest (pyDictInsert result d dep) (queue ++ [dep])
    | none => processDeps lookup rest result queue

/-- Termination measure helper: the number of distinct `lookup` keys not yet
present in `result`. -/
def missingCount (lookup result : List (String × Artifact)) : Nat :=
  ((lookup.map Prod.fst).dedup.filter (fun k => !(pyDictHasKey result k))).length

/-- The `while queue:` loop of `_expand_dependencies`: pop from the front,
skip already-visited ids, otherwise mark visited and process the popped
artifact's dependencies.  The loop terminates because each enqueue removes a
distinct `lookup` key from the not-yet-in-`result` set. -/
def expandLoop (lookup : List (String × Artifact)) (visited : List String)
    (result : List (String × Artifact)) (queue : List Artifact) :
    List (String × Artifact) :=
  match queue with
  | [] => result
  | current :: rest =>
    if visited.contains current.artifact_id then
      expandLoop lookup visited result rest
    else
      expandLoop lookup (current.artifact_id :: visited)
        (processDeps lookup current.dependencies result rest).1
        (processDeps lookup current.dependencies result rest).2
termination_by 2 * missingCount lookup result + queue.length
decreasing_by
  · simp only [List.length_cons]
    omega
  · have key : ∀ (deps : List String) (result : List (String × Artifact))
        (queue : List Artifact),
        2 * missingCount lookup (processDeps lookup deps result queue).1
            + (processDeps lookup deps result queue).2.length
          ≤ 2 * missingCount lookup result + queue.length := by
      intro deps
      induction deps with
      | nil => intro result queue; simp [processDeps]
      | cons d rest ih =>
        intro result queue
        simp only [processDeps]
        cases hget : pyDictGet lookup d with
        | none => exact ih result queue
        | some dep =>
          simp only
          by_cases hk : pyDictHasKey result d
          · simp only [hk, if_pos]
            exact ih result queue
          · simp only [hk, if_neg, Bool.false_eq_true, not_false_iff]
            refine le_trans (ih _ _) ?_
            have hins : pyDictInsert result d dep = result ++ [(d, dep)] := by
              unfold pyDictInsert
              split
              · next hcond => exact absurd hcond hk
              · rfl
            have hdL : d ∈ (lookup.map Prod.fst).dedup := by
              simp only [pyDictGet, Option.map_eq_some'] at hget
              obtain ⟨kv, hfind, _hv⟩ := hget
              have h1 := List.find?_some hfind
              have h2 := List.mem_of_find?_eq_some hfind
              rw [List.mem_reverse] at h2
              simp only [beq_iff_eq] at h1
              rw [List.mem_dedup]
              exact h1 ▸ List.mem_map_of_mem Prod.fst h2
            have hmc : missingCount lookup (result ++ [(d, dep)]) + 1
                ≤ missingCount lookup result := by
              simp only [missingCount]
              have hfilt : ∀ k, pyDictHasKey (result ++ [(d, dep)]) k
                  = (pyDictHasKey result k || (d == k)) := by
                intro k
                simp [pyDictHasKey, List.any_append, Bool.or_comm]
              have hcong : (lookup.map Prod.fst).dedup.filter
                    (fun k => !(pyDictHasKey (result ++ [(d, dep)]) k))
                  = ((lookup.map Prod.fst).dedup.filter
                      (fun k => !(pyDictHasKey result k))).filter
                      (fun k => !(d == k)) := by
                rw [List.filter_filter]
                apply List.filter_congr
                intro k _
                rw [hfilt k]
                cases pyDictHasKey result k <;> cases h : (d == k) <;> simp [h]
              rw [hcong]
              set M := (lookup.map Prod.fst).dedup.filter
                  (fun k => !(pyDictHasKey result k)) with hM
              have hkf : pyDictHasKey result d = false := by
                revert hk; cases pyDictHasKey result d <;> simp
              have hdM : d ∈ M := by
                rw [hM]
                rw [List.mem_filter]
                exact ⟨hdL, by rw [hkf]; rfl⟩
              have hMnd : M.Nodup := List.Nodup.filter _ (List.nodup_dedup _)
              have herase : M.filter (fun k => !(d == k)) = M.erase d := by
                rw [List.Nodup.erase_eq_filter hMnd]
                apply List.filter_congr
                intro k _
                cases h1 : (k == d) <;> cases h2 : (d == k) <;> simp_all [bne]
              rw [herase, List.length_erase_of_mem hdM]
              have : 1 ≤ M.length := List.length_pos_of_mem hdM
              omega
            rw [hins] at *
            simp only [List.length_append, List.length_singleton]
            omega
    have h := key current.dependencies result rest
    simp only [List.length_cons]
    omega

/-- `StateRAGManager._expand_dependencies(artifacts)` against a store whose
`self.artifacts` is `storeArts`: returns `list(result.values())`. -/
def expandDependencies (storeArts : List Artifact) (artifacts : List Artifact) :
    List Artifact :=
  (expandLoop (activeLookupById storeArts) [] (pyDictOfList artifacts) artifacts).map
    Prod.snd

/-- The set of artifact ids reachable from the seed ids through dependency
references of active store artifacts (`lookup` keyed by id): the seeds, plus
any `lookup` key listed among the dependencies of a reachable artifact.
Dependency references that are not `lookup` keys (missing or inactive
targets) reach nothing. -/
inductive Reachable (lookup : List (String × Artifact)) (seedIds : List String) :
    String → Prop where
  | seed (i : String) : i ∈ seedIds → Reachable lookup seedIds i
  | step (i d : String) (a : Artifact) : Reachable lookup seedIds i →
      pyDictGet lookup i = some a → d ∈ a.dependencies →
      (pyDictGet lookup d).isSome → Reachable lookup seedIds d

/-! ### Retrieval without a user query (`state_rag_manager.py`,
`StateRAGManager.retrieve` with `user_query=None`).  The semantic branch
(`_rank_with_faiss`) is only entered when a query is given and calls the
external FAISS/embedding stack; the no-query path below is the complete
translation of `retrieve` for `user_query=None`. -/

/-- Steps 1-4 of `StateRAGManager.retrieve`: keep active artifacts, apply
the scope and file-path filters (`none` and `some []` both model falsy
Python arguments), then expand dependencies. -/
def retrieveCandidates (storeArts : List Artifact) (scope : Option (List ArtifactType))
    (file_paths : Option (List String)) : List Artifact :=
  let a1 := storeArts.filter (fun a => a.is_active)
  let a2 := match scope with
    | some sc => if sc.isEmpty then a1 else a1.filter (fun a => sc.contains a.type)
    | none => a1
  let a3 := match file_paths with
    | some fps => if fps.isEmpty then a2 else a2.filter (fun a => fps.contains a.file_path)
    | none => a2
  expandDependencies storeArts a3

/-- `StateRAGManager.retrieve(scope, file_paths, limit, user_query=None)`
(the source's `limit` defaults to 10): steps 5-6 with no query sort the
candidates by file path (Python's stable `list.sort`) and truncate to
`limit`. -/
def retrieveNoQuery (storeArts : List Artifact) (scope : Option (List ArtifactType))
    (file_paths : Option (List String)) (limit : Nat) : List Artifact :=
  ((retrieveCandidates storeArts scope file_paths).mergeSort
    (fun x y => decide (x.file_path ≤ y.file_path))).take limit

/-! ### Gemini retry loop (`llm_adapter.py`,
`LLMAdapter._gemini_response_with_retry`).  The provider call is modelled as
an oracle giving each attempt's outcome; the error branch carries `str(e)`.
`time.sleep` calls are recorded in `sleeps` (seconds). -/

/-- The rate-limit test of the retry loop:
`"429" in e or "Resource exhausted" in e or "quota" in e.lower()`. -/
def rateLimitError (e : String) : Bool :=
  pyContains e "429" || pyContains e "Resource exhausted"
    || pyContains (pyLower e) "quota"

/-- The model-not-found test: `"404" in e or "not found" in e.lower()`. -/
def notFoundError (e : String) : Bool :=
  pyContains e "404" || pyContains (pyLower e) "not found"

/-- Outcome of `_gemini_response_with_retry`: the returned text or the raised
error message, how many provider calls were made, and the sleeps performed. -/
structure RetryOutcome where
  result : Except String String
  attempts : Nat
  sleeps : List Nat
deriving Repr

/-- The `for attempt in range(max_retries)` loop of
`_gemini_response_with_retry`, from a given attempt index. -/
def geminiRetryLoop (oracle : Nat → Except String String) (max_retries : Nat)
    (attempt : Nat) (sleeps : List Nat) : RetryOutcome :=
  if _h : attempt < max_retries then
    match oracle attempt with
    | .ok text => ⟨.ok text, attempt + 1, sleeps⟩
    | .error e =>
      if rateLimitError e then
        if attempt < max_retries - 1 then
          geminiRetryLoop oracle max_retries (attempt + 1) (sleeps ++ [5 * 3 ^ attempt])
        else
          ⟨.error ("Gemini API rate limit exceeded after " ++ toString max_retries
            ++ " retries. Free tier limits: 15 requests/minute, 1500 requests/day. "
            ++ "Please wait a few minutes and try again."), attempt + 1, sleeps⟩
      else if notFoundError e then
        ⟨.error ("Gemini model error: " ++ e ++ "\nThe model might not be available "
          ++ "with your API key. Try running: python list_models.py"), attempt + 1, sleeps⟩
      else
        ⟨.error ("Gemini API error: " ++ e), attempt + 1, sleeps⟩
  else
    ⟨.error "Max retries exceeded", attempt, sleeps⟩
termination_by max_retries - attempt
decreasing_by omega

/-- `_gemini_response_with_retry(prompt, max_retries)`. -/
def geminiRetry (oracle : Nat → Except String String) (max_retries : Nat) :
    RetryOutcome :=
  geminiRetryLoop oracle max_retries 0 []

/-! ### Loading durable storage (`state_rag_manager.py`,
`StateRAGManager._load`).  `json.loads` followed by
`[Artifact(**a) for a in raw]` is abstracted as a decode oracle over the
stripped file text. -/

/-- Outcome of decoding the stripped storage text: `jsonError` when
`json.loads` raises `JSONDecodeError`; `convError` when `json.loads`
succeeds but `[Artifact(**a) for a in raw]` raises (non-iterable value,
non-mapping item, or a pydantic validation failure); `ok` otherwise. -/
inductive DecodeOutcome where
  | jsonError
  | convError
  | ok : List Artifact → DecodeOutcome
deriving DecidableEq, Repr

/-- `StateRAGManager._load` over a store whose artifact list is `current`:
`file = none` models a missing state file.  `.ok` carries the artifact list
after the call; `.error` models an exception escaping `_load` (the artifact
list is then left unchanged, but the caller sees the raise). -/
def loadArtifacts (decode : String → DecodeOutcome) (file : Option String)
    (current : List Artifact) : Except Unit (List Artifact) :=
  match file with
  | none => .ok current
  | some text =>
    let content := pyStrip text
    if content == "" then .ok current
    else match decode content with
      | .jsonError => .ok []
      | .convError => .error ()
      | .ok arts => .ok arts

/-! ### Generator-output parsing (`llm_output_parser.py`,
`parse_llm_output` and `_infer_language`).  The `FILE:` regex split is the
`re` module's; what each loop iteration receives is the marker's captured
path (`match.group(1)`) and the text up to the next marker.  `parseBlock`
is the translation of that loop body. -/

/-- `_infer_language`. -/
def inferLanguage (file_path : String) : String :=
  let f := pyLower file_path
  if pyEndsWith f ".tsx" then "tsx"
  else if pyEndsWith f ".ts" then "ts"
  else if pyEndsWith f ".jsx" then "js"
  else if pyEndsWith f ".js" then "js"
  else if pyEndsWith f ".css" then "css"
  else if pyEndsWith f ".json" then "json"
  else if pyEndsWith f ".html" then "html"
  else "tsx"

/-- One iteration of the `for i, match in enumerate(matches)` loop of
`parse_llm_output`: strip the captured path, rewrite a `.jsx` path to
`.tsx`, reject empty paths and empty content, and infer the language from
the (rewritten) path. -/
def parseBlock (rawPath rawContent : String) : Except String ProposedArtifact :=
  let fp0 := pyStrip rawPath
  let fp := if pyEndsWith fp0 ".jsx" then pyDropRight fp0 4 ++ ".tsx" else fp0
  if fp == "" then .error "Empty file path in FILE header"
  else
    let content := pyStrip rawContent
    if content == "" then .error ("Empty content for file: " ++ fp)
    else .ok ⟨fp, content, inferLanguage fp⟩

/-! ### Concrete artifacts used to instantiate the theorems. -/

/-- A user-modified active artifact at `src/App.tsx`. -/
def sampleUser : Artifact :=
  ⟨"id-user", .component, "App.tsx", "src/App.tsx", "user code", "tsx",
    1, true, .user_modified, [], some "react", some "tailwind", 0, 0⟩

/-- An AI-modified candidate for `src/App.tsx`. -/
def sampleCand : Artifact :=
  ⟨"id-cand", .component, "App.tsx", "src/App.tsx", "new code", "tsx",
    1, true, .ai_modified, [], some "react", some "tailwind", 0, 0⟩

/-- Cycle artifact `A`, depending on `B`. -/
def cycA : Artifact :=
  ⟨"A", .component, "A.tsx", "src/A.tsx", "code A", "tsx",
    1, true, .ai_generated, ["B"], some "react", some "tailwind", 0, 0⟩

/-- Cycle artifact `B`, depending back on `A`. -/
def cycB : Artifact :=
  ⟨"B", .component, "B.tsx", "src/B.tsx", "code B", "tsx",
    1, true, .ai_generated, ["A"], some "react", some "tailwind", 0, 0⟩

/-!
## Theorems

Helper lemmas come first, then one theorem per claim (with a witness
instance when the theorem carries hypotheses).
-/

/-- The authority-enforcement loop of `commit` fires exactly when some
active artifact at the candidate's path is `user_modified` while the
candidate is not. -/
theorem authorityViolation_iff (arts : List Artifact) (cand : Artifact) :
    authorityViolation (activeVersionsAt arts cand.file_path) cand = true ↔
      ∃ old ∈ arts, old.file_path = cand.file_path ∧ old.is_active = true ∧
        old.source = ArtifactSource.user_modified ∧
        cand.source ≠ ArtifactSource.user_modified := by
  simp only [authorityViolation, activeVersionsAt, pathActiveB, List.any_eq_true,
    List.mem_filter, Bool.and_eq_true, beq_iff_eq, Bool.not_eq_true',
    beq_eq_false_iff_ne, ne_eq]
  constructor
  · rintro ⟨old, ⟨hmem, hpath, hact⟩, hsrc, hcand⟩
    exact ⟨old, hmem, hpath, hact, hsrc, hcand⟩
  · rintro ⟨old, hmem, hpath, hact, hsrc, hcand⟩
    exact ⟨old, ⟨hmem, hpath, hact⟩, hsrc, hcand⟩

/-- **C1** (`StateRAGManager.commit`, authority enforcement): a commit fails
with the Authority error exactly when some currently active artifact at the
candidate's path is `user_modified` while the candidate's ownership tag is
not `user_modified`; on that failure the raised error is the
`Cannot override user-modified artifact` `ValueError` and the store's
artifact set is unchanged (nothing is deactivated, appended or persisted);
and a candidate tagged `user_modified` always commits successfully. -/
theorem commit_authority_error_iff (arts : List Artifact) (cand : Artifact) (now : Nat) :
    ((commit arts cand now).2.isOk = false ↔
      ∃ old ∈ arts, old.file_path = cand.file_path ∧ old.is_active = true ∧
        old.source = ArtifactSource.user_modified ∧
        cand.source ≠ ArtifactSource.user_modified)
    ∧ ((commit arts cand now).2.isOk = false →
        (commit arts cand now).1 = arts ∧
        (commit arts cand now).2 =
          .error ("Cannot override user-modified artifact: " ++ cand.file_path))
    ∧ (cand.source = ArtifactSource.user_modified →
        (commit arts cand now).2.isOk = true) := by
  by_cases hv : authorityViolation (activeVersionsAt arts cand.file_path) cand = true
  · have hiff := (authorityViolation_iff arts cand).mp hv
    refine ⟨⟨fun _ => hiff, fun _ => ?_⟩, fun _ => ?_, fun hsrc => ?_⟩
    · simp only [commit, hv, if_true]
      rfl
    · simp [commit, hv]
    · exfalso
      obtain ⟨_, _, _, _, _, hcand⟩ := hiff
      exact hcand hsrc
  · have hokv : (commit arts cand now).2.isOk = true := by
      simp only [commit]
      rw [if_neg hv]
      rfl
    refine ⟨⟨fun hfalse => ?_, fun hex => ?_⟩, fun hfalse => ?_, fun _ => hokv⟩
    · rw [hokv] at hfalse; exact absurd hfalse (by simp)
    · exact absurd ((authorityViolation_iff arts cand).mpr hex) hv
    · rw [hokv] at hfalse; exact absurd hfalse (by simp)

/-- Witness for `commit_authority_error_iff` at a concrete input: a
`user_modified` candidate over a `user_modified` active artifact commits. -/
theorem commit_authority_error_iff_witness :
    (commit [sampleUser] sampleUser 0).2.isOk = true :=
  (commit_authority_error_iff [sampleUser] sampleUser 0).2.2 rfl

/-- **C6** (`Validator.validate`): the four rules run in the fixed order
Syntax, Authority, Scope, Consistency against the full proposed batch; the
first failing rule's result (with its reason) is returned and no later rule
matters; when all four pass, the result carries the proposed batch
unchanged. -/
theorem validator_chain_order (ps : List ProposedArtifact) (arts : List Artifact)
    (al : List String) :
    ((syntaxCheck ps (buildActiveLookup arts) al).ok = false →
      validate ps arts al = syntaxCheck ps (buildActiveLookup arts) al)
    ∧ ((syntaxCheck ps (buildActiveLookup arts) al).ok = true →
       (authorityCheck ps (buildActiveLookup arts) al).ok = false →
      validate ps arts al = authorityCheck ps (buildActiveLookup arts) al)
    ∧ ((syntaxCheck ps (buildActiveLookup arts) al).ok = true →
       (authorityCheck ps (buildActiveLookup arts) al).ok = true →
       (scopeCheck ps (buildActiveLookup arts) al).ok = false →
      validate ps arts al = scopeCheck ps (buildActiveLookup arts) al)
    ∧ ((syntaxCheck ps (buildActiveLookup arts) al).ok = true →
       (authorityCheck ps (buildActiveLookup arts) al).ok = true →
       (scopeCheck ps (buildActiveLookup arts) al).ok = true →
       (consistencyCheck ps (buildActiveLookup arts) al).ok = false →
      validate ps arts al = consistencyCheck ps (buildActiveLookup arts) al)
    ∧ ((syntaxCheck ps (buildActiveLookup arts) al).ok = true →
       (authorityCheck ps (buildActiveLookup arts) al).ok = true →
       (scopeCheck ps (buildActiveLookup arts) al).ok = true →
       (consistencyCheck ps (buildActiveLookup arts) al).ok = true →
      validate ps arts al = ⟨true, some ps, none⟩) := by
  refine ⟨fun h1 => ?_, fun h1 h2 => ?_, fun h1 h2 h3 => ?_,
    fun h1 h2 h3 h4 => ?_, fun h1 h2 h3 h4 => ?_⟩
  all_goals simp [validate, ruleChecks, runRules, *]

/-- Witness for `validator_chain_order`: an empty batch with wildcard scope
passes every rule and is returned unchanged. -/
theorem validator_chain_order_witness :
    validate [] [] ["*"] = ⟨true, some [], none⟩ :=
  (validator_chain_order [] [] ["*"]).2.2.2.2 rfl rfl rfl rfl

/-- Inverting the `active_lookup` dict of `Validator.validate`: a hit is an
active member of the artifact list whose path is the key. -/
theorem pyDictGet_buildActiveLookup (arts : List Artifact) (p : String) (old : Artifact)
    (h : pyDictGet (buildActiveLookup arts) p = some old) :
    old ∈ arts ∧ old.is_active = true ∧ old.file_path = p := by
  simp only [pyDictGet, Option.map_eq_some'] at h
  obtain ⟨kv, hfind, hv⟩ := h
  have h1 := List.find?_some hfind
  have h2 := List.mem_of_find?_eq_some hfind
  rw [List.mem_reverse] at h2
  simp only [buildActiveLookup, List.mem_map] at h2
  obtain ⟨a, ha, hpair⟩ := h2
  rw [List.mem_filter] at ha
  simp only [beq_iff_eq] at h1
  have hval : a = old := by rw [← hv, ← hpair]
  have hkey : a.file_path = p := by rw [← h1, ← hpair]
  exact ⟨hval ▸ ha.1, hval ▸ ha.2, hval ▸ hkey⟩

/-- **C2** (amended; `Orchestrator._pre_validate_authority` vs
`AuthorityValidator.check`): the pre-check is never looser than the
Authority rule — whenever the rule rejects a proposed batch against an
active set and allowed paths, the pre-check on that active set and allowed
paths raises too, and under the `"*"` wildcard both pass.  The converse
fails (see `preValidate_authority_disagree`): the pre-check also rejects
when a `user_modified` active artifact outside the allowed paths is not
touched by the proposed batch at all. -/
theorem preValidate_stricter_than_authority_rule (active_artifacts : List Artifact)
    (allowed_paths : List String) (proposed : List ProposedArtifact) :
    ((authorityCheck proposed (buildActiveLookup active_artifacts) allowed_paths).ok = false →
      (preValidateAuthority active_artifacts allowed_paths).isOk = false)
    ∧ (allowed_paths.contains "*" = true →
      (preValidateAuthority active_artifacts allowed_paths).isOk = true) := by
  constructor
  · intro h
    rcases hfind : proposed.find?
        (authorityFailure (buildActiveLookup active_artifacts) allowed_paths) with _ | p
    · simp [authorityCheck, hfind, mkPass] at h
    · have hfail := List.find?_some hfind
      unfold authorityFailure at hfail
      rcases hget : pyDictGet (buildActiveLookup active_artifacts) p.file_path with _ | old
      · rw [hget] at hfail; simp at hfail
      · rw [hget] at hfail
        simp only [Bool.and_eq_true, beq_iff_eq, Bool.not_eq_true'] at hfail
        obtain ⟨hsrc, hallow⟩ := hfail
        obtain ⟨hmem, hact, hpath⟩ := pyDictGet_buildActiveLookup _ _ _ hget
        simp only [isAllowed, Bool.or_eq_false_iff] at hallow
        obtain ⟨hstar, hpathna⟩ := hallow
        unfold preValidateAuthority
        rw [if_neg (by rw [hstar]; simp)]
        have hne : active_artifacts.filter (fun a =>
            a.source == ArtifactSource.user_modified
              && !(allowed_paths.contains a.file_path)) ≠ [] := by
          apply @List.ne_nil_of_mem _ old
          rw [List.mem_filter]
          refine ⟨hmem, ?_⟩
          rw [hsrc, hpath, hpathna]
          rfl
        rw [if_neg (by rw [List.isEmpty_eq_false.mpr hne]; simp)]
        rfl
  · intro h
    unfold preValidateAuthority
    rw [if_pos (by rw [h])]
    rfl

/-- Witness for `preValidate_stricter_than_authority_rule`: with no allowed
paths and a batch touching the user-modified `src/App.tsx`, the Authority
rule fails, so the theorem yields the pre-check's rejection. -/
theorem preValidate_stricter_witness :
    (preValidateAuthority [sampleUser] []).isOk = false :=
  (preValidate_stricter_than_authority_rule [sampleUser] []
    [⟨"src/App.tsx", "x", "tsx"⟩]).1 rfl

/-- Counterexample to **C2** as stated: with the active set holding a
`user_modified` artifact at `src/App.tsx`, allowed paths
`["src/Other.tsx"]`, and a proposed batch touching only `src/Other.tsx`,
`_pre_validate_authority` raises while `AuthorityValidator.check` on the
same inputs passes — the two computations do not produce the same rejection
outcome. -/
theorem preValidate_authority_disagree :
    (preValidateAuthority [sampleUser] ["src/Other.tsx"]).isOk = false
    ∧ (authorityCheck [⟨"src/Other.tsx", "x", "tsx"⟩]
        (buildActiveLookup [sampleUser]) ["src/Other.tsx"]).ok = true :=
  ⟨rfl, rfl⟩

/-- Counterexample to **C8** as stated: storage content `"1"` is valid JSON
(Python `json.loads("1")` returns the integer `1`), so `_load` does not hit
its `json.JSONDecodeError` handler; the following list conversion
`[Artifact(**a) for a in raw]` raises `TypeError`, which escapes to the
caller.  The decode oracle below records exactly that behaviour of the
`json` module and pydantic on the content `"1"`. -/
theorem load_raises_on_valid_json_nonlist :
    loadArtifacts (fun s => if s == "1" then .convError else .jsonError) (some "1") []
      = .error () := rfl

/-- **C8** (amended; `StateRAGManager._load`): a missing file and
empty/whitespace content leave the artifact set unchanged; content whose
JSON parse fails resets the set to empty (warning logged) without raising;
content that parses as JSON and converts to an artifact list replaces the
set; but content that parses as JSON and then fails artifact-list conversion
raises to the caller — `_load` only catches `json.JSONDecodeError`. -/
theorem load_behavior (decode : String → DecodeOutcome) (file : Option String)
    (current : List Artifact) :
    (file = none → loadArtifacts decode file current = .ok current)
    ∧ (∀ s, file = some s → pyStrip s = "" →
        loadArtifacts decode file current = .ok current)
    ∧ (∀ s, file = some s → pyStrip s ≠ "" → decode (pyStrip s) = .jsonError →
        loadArtifacts decode file current = .ok [])
    ∧ (∀ s arts, file = some s → pyStrip s ≠ "" → decode (pyStrip s) = .ok arts →
        loadArtifacts decode file current = .ok arts)
    ∧ (∀ s, file = some s → pyStrip s ≠ "" → decode (pyStrip s) = .convError →
        loadArtifacts decode file current = .error ()) := by
  refine ⟨fun h => by rw [h]; rfl, fun s hs ht => ?_, fun s hs ht hd => ?_,
    fun s arts hs ht hd => ?_, fun s hs ht hd => ?_⟩
  · subst hs
    simp [loadArtifacts, ht]
  all_goals subst hs
  all_goals simp only [loadArtifacts]
  all_goals rw [if_neg (by simp [ht]), hd]

/-- Witness for `load_behavior`: JSON-malformed content resets the store to
the empty list without raising. -/
theorem load_behavior_witness :
    loadArtifacts (fun _ => DecodeOutcome.jsonError) (some "not json") [sampleUser]
      = .ok [] :=
  (load_behavior (fun _ => DecodeOutcome.jsonError) (some "not json") [sampleUser]).2.2.1
    "not json" rfl (by decide) rfl

/-- A string that is an appended `".tsx"` ends with `".tsx"`. -/
theorem pyEndsWith_append_tsx (x : String) : pyEndsWith (x ++ ".tsx") ".tsx" = true := by
  simp only [pyEndsWith, String.data_append]
  exact List.isSuffixOf_iff_suffix.mpr (List.suffix_append _ _)

/-- Rewriting a `.jsx` path to `.tsx` changes the string. -/
theorem jsx_rewrite_ne (p : String) (h : pyEndsWith p ".jsx" = true) :
    pyDropRight p 4 ++ ".tsx" ≠ p := by
  intro heq
  have hsuf : ".jsx".data <:+ p.data := List.isSuffixOf_iff_suffix.mp h
  obtain ⟨pre, hpre⟩ := hsuf
  have hlen : p.data.length - 4 = pre.length := by
    rw [← hpre, List.length_append]
    simp
  have hdata : (pyDropRight p 4).data ++ ".tsx".data = p.data := by
    rw [← String.data_append, heq]
  have hdr : (pyDropRight p 4).data = p.data.take (p.data.length - 4) := rfl
  rw [hdr, hlen, ← hpre, List.take_left] at hdata
  have hcancel := List.append_cancel_left hdata
  exact absurd hcancel (by decide)

/-- Lowering distributes over the appended `".tsx"` suffix. -/
theorem pyLower_append_tsx (x : String) :
    (pyLower (x ++ ".tsx")).data = (pyLower x).data ++ ".tsx".data := by
  show ((x ++ ".tsx").data.map Char.toLower) = (x.data.map Char.toLower) ++ ".tsx".data
  rw [String.data_append, List.map_append]
  congr 1

/-- `_infer_language` on a path ending in `".tsx"` answers `"tsx"`. -/
theorem inferLanguage_append_tsx (x : String) : inferLanguage (x ++ ".tsx") = "tsx" := by
  have hends : pyEndsWith (pyLower (x ++ ".tsx")) ".tsx" = true := by
    simp only [pyEndsWith, pyLower_append_tsx]
    exact List.isSuffixOf_iff_suffix.mpr (List.suffix_append _ _)
  simp only [inferLanguage]
  rw [if_pos hends]

/-- **C10** (`parse_llm_output` / `_infer_language`): a block whose stripped
`FILE:` marker path ends in `.jsx` is silently rewritten — the returned
`ProposedArtifact` carries the path with `.jsx` replaced by `.tsx` (so it
ends in `.tsx`, differs from the marker path, and its language is inferred
as `tsx`); a marker path with any other ending is returned stripped but
otherwise unchanged. -/
theorem parser_jsx_rewrite (rawPath rawContent : String) :
    (∀ art, pyEndsWith (pyStrip rawPath) ".jsx" = true →
      parseBlock rawPath rawContent = .ok art →
        art.file_path = pyDropRight (pyStrip rawPath) 4 ++ ".tsx"
        ∧ pyEndsWith art.file_path ".tsx" = true
        ∧ art.language = "tsx"
        ∧ art.file_path ≠ pyStrip rawPath)
    ∧ (∀ art, pyEndsWith (pyStrip rawPath) ".jsx" = false →
      parseBlock rawPath rawContent = .ok art →
        art.file_path = pyStrip rawPath
        ∧ art.language = inferLanguage (pyStrip rawPath)) := by
  constructor
  · intro art hjsx hok
    simp only [parseBlock, hjsx, if_true] at hok
    split at hok
    · exact absurd hok (by simp)
    · split at hok
      · exact absurd hok (by simp)
      · have hart : art = ⟨pyDropRight (pyStrip rawPath) 4 ++ ".tsx",
            pyStrip rawContent,
            inferLanguage (pyDropRight (pyStrip rawPath) 4 ++ ".tsx")⟩ := by
          cases hok
          rfl
        subst hart
        refine ⟨rfl, pyEndsWith_append_tsx _, inferLanguage_append_tsx _,
          jsx_rewrite_ne _ hjsx⟩
  · intro art hjsx hok
    simp only [parseBlock, hjsx, Bool.false_eq_true, if_false] at hok
    split at hok
    · exact absurd hok (by simp)
    · split at hok
      · exact absurd hok (by simp)
      · have hart : art = ⟨pyStrip rawPath, pyStrip rawContent,
            inferLanguage (pyStrip rawPath)⟩ := by
          cases hok
          rfl
        subst hart
        exact ⟨rfl, rfl⟩

/-- Witness for `parser_jsx_rewrite`: the marker path `pages/App.jsx` comes
back as `pages/App.tsx`, a path the caller never declared. -/
theorem parser_jsx_rewrite_witness :
    (⟨"pages/App.tsx", "body", "tsx"⟩ : ProposedArtifact).file_path
      ≠ pyStrip "pages/App.jsx" :=
  ((parser_jsx_rewrite "pages/App.jsx" "body").1
    ⟨"pages/App.tsx", "body", "tsx"⟩ (by decide) rfl).2.2.2

/-- A run of consecutive rate-limited attempts advances the retry loop,
sleeping `5 * 3 ^ attempt` seconds before each retry. -/
theorem geminiRetryLoop_transient_steps (oracle : Nat → Except String String)
    (mr : Nat) :
    ∀ (k a : Nat) (sl : List Nat),
      (∀ i, i < k → ∃ e, oracle (a + i) = .error e ∧ rateLimitError e = true) →
      a + k < mr →
      geminiRetryLoop oracle mr a sl
        = geminiRetryLoop oracle mr (a + k)
            (sl ++ (List.range' a k).map (fun i => 5 * 3 ^ i)) := by
  intro k
  induction k with
  | zero => intro a sl _ _; simp
  | succ n ih =>
    intro a sl hf hlt
    obtain ⟨e, he, hrl⟩ := hf 0 (Nat.succ_pos n)
    rw [Nat.add_zero] at he
    have hstep : geminiRetryLoop oracle mr a sl
        = geminiRetryLoop oracle mr (a + 1) (sl ++ [5 * 3 ^ a]) := by
      rw [geminiRetryLoop]
      rw [dif_pos (by omega : a < mr)]
      rw [he]
      simp only
      rw [if_pos hrl, if_pos (by omega : a < mr - 1)]
    rw [hstep]
    have hsh : ∀ i, i < n → ∃ e, oracle (a + 1 + i) = .error e ∧ rateLimitError e = true := by
      intro i hi
      have := hf (i + 1) (by omega)
      rwa [show a + (i + 1) = a + 1 + i by omega] at this
    have := ih (a + 1) (sl ++ [5 * 3 ^ a]) hsh (by omega)
    rw [this, List.range'_succ, List.map_cons, List.append_assoc]
    have hidx : a + 1 + n = a + (n + 1) := by omega
    rw [hidx]
    rfl

/-- **C7** (amended; `LLMAdapter._gemini_response_with_retry`): the only
failures treated as transient and retried are the rate-limit class (message
containing `429` or `Resource exhausted`, or `quota` after lowering); those
are retried with exponential backoff `5 * 3 ^ attempt` seconds up to the
`max_retries` attempt ceiling, and exhausting the budget surfaces one
terminal error naming the retry count.  Every other failure — including
timeouts, 500/503-class server errors and connection errors — propagates
immediately without any retry (the 404/model-not-found class with its own
message, the rest wrapped as a generic Gemini API error). -/
theorem gemini_retry_behavior (oracle : Nat → Except String String) (mr : Nat) :
    ((∀ i, i < mr → ∃ e, oracle i = .error e ∧ rateLimitError e = true) → 0 < mr →
      geminiRetry oracle mr
        = ⟨.error ("Gemini API rate limit exceeded after " ++ toString mr
            ++ " retries. Free tier limits: 15 requests/minute, 1500 requests/day. "
            ++ "Please wait a few minutes and try again."), mr,
            (List.range (mr - 1)).map (fun i => 5 * 3 ^ i)⟩)
    ∧ (∀ k t, k < mr →
        (∀ i, i < k → ∃ e, oracle i = .error e ∧ rateLimitError e = true) →
        oracle k = .ok t →
      geminiRetry oracle mr
        = ⟨.ok t, k + 1, (List.range k).map (fun i => 5 * 3 ^ i)⟩)
    ∧ (∀ k e, k < mr →
        (∀ i, i < k → ∃ e2, oracle i = .error e2 ∧ rateLimitError e2 = true) →
        oracle k = .error e → rateLimitError e = false →
      geminiRetry oracle mr
        = ⟨.error (if notFoundError e
              then ("Gemini model error: " ++ e ++ "\nThe model might not be available "
                ++ "with your API key. Try running: python list_models.py")
              else ("Gemini API error: " ++ e)), k + 1,
            (List.range k).map (fun i => 5 * 3 ^ i)⟩) := by
  refine ⟨fun hall hpos => ?_, fun k t hk hpre hok => ?_, fun k e hk hpre herr hnrl => ?_⟩
  · have hsteps := geminiRetryLoop_transient_steps oracle mr (mr - 1) 0 []
      (fun i hi => by simpa using hall i (by omega)) (by omega)
    unfold geminiRetry
    rw [hsteps]
    obtain ⟨e, he, hrl⟩ := hall (mr - 1) (by omega)
    rw [geminiRetryLoop]
    rw [dif_pos (by omega : 0 + (mr - 1) < mr)]
    rw [show (0 : Nat) + (mr - 1) = mr - 1 by omega, he]
    simp only
    rw [if_pos hrl, if_neg (by omega : ¬ mr - 1 < mr - 1)]
    rw [show mr - 1 + 1 = mr by omega]
    rw [List.nil_append, List.range_eq_range']
  · have hsteps := geminiRetryLoop_transient_steps oracle mr k 0 []
      (fun i hi => by simpa using hpre i hi) (by omega)
    unfold geminiRetry
    rw [hsteps]
    rw [geminiRetryLoop]
    rw [dif_pos (by omega : 0 + k < mr)]
    rw [show (0 : Nat) + k = k by omega, hok]
    rw [List.nil_append, List.range_eq_range']
  · have hsteps := geminiRetryLoop_transient_steps oracle mr k 0 []
      (fun i hi => by simpa using hpre i hi) (by omega)
    unfold geminiRetry
    rw [hsteps]
    rw [geminiRetryLoop]
    rw [dif_pos (by omega : 0 + k < mr)]
    rw [show (0 : Nat) + k = k by omega, herr]
    simp only
    rw [if_neg (by rw [hnrl]; simp)]
    rw [List.nil_append, List.range_eq_range']
    cases hnf : notFoundError e <;> simp [hnf]

/-- Witness for `gemini_retry_behavior`: an oracle that always answers a
`429` rate limit exhausts all 3 attempts with backoff sleeps 5 s and 15 s
and surfaces the terminal error naming the retry count. -/
theorem gemini_retry_behavior_witness :
    geminiRetry (fun _ => .error "429") 3
      = ⟨.error ("Gemini API rate limit exceeded after " ++ toString 3
          ++ " retries. Free tier limits: 15 requests/minute, 1500 requests/day. "
          ++ "Please wait a few minutes and try again."), 3,
          (List.range (3 - 1)).map (fun i => 5 * 3 ^ i)⟩ :=
  (gemini_retry_behavior (fun _ => .error "429") 3).1
    (fun _ _ => ⟨"429", rfl, rfl⟩) (by omega)

/-- Counterexample to **C7** as stated: a timeout — a failure the claim
classifies as transient — is not retried by
`_gemini_response_with_retry`: the call makes exactly one attempt, sleeps
never, and raises the generic Gemini API error immediately. -/
theorem gemini_timeout_not_retried :
    geminiRetry (fun _ => .error "Request timed out") 3
      = ⟨.error "Gemini API error: Request timed out", 1, []⟩ := by
  unfold geminiRetry
  rw [geminiRetryLoop]
  rfl

/-- Membership is unchanged by first-occurrence deduplication. -/
theorem mem_firstDedup : ∀ (l : List String) (x : String), x ∈ firstDedup l ↔ x ∈ l := by
  intro l
  induction l using firstDedup.induct with
  | case1 => intro x; simp [firstDedup]
  | case2 y ys ih =>
    intro x
    rw [firstDedup]
    simp only [List.mem_cons, ih, List.mem_filter, bne_iff_ne, ne_eq]
    constructor
    · rintro (h | ⟨h, _⟩)
      · exact Or.inl h
      · exact Or.inr h
    · rintro (h | h)
      · exact Or.inl h
      · by_cases hxy : x = y
        · exact Or.inl hxy
        · refine Or.inr ⟨h, ?_⟩
          simp [hxy]

/-- First-occurrence deduplication yields a duplicate-free list. -/
theorem nodup_firstDedup : ∀ (l : List String), (firstDedup l).Nodup := by
  intro l
  induction l using firstDedup.induct with
  | case1 => simp [firstDedup]
  | case2 y ys ih =>
    rw [firstDedup]
    refine List.nodup_cons.mpr ⟨?_, ih⟩
    intro hmem
    rw [mem_firstDedup, List.mem_filter] at hmem
    simp at hmem

/-- Every artifact kept by the per-path retention body comes from the store
and lives at that path. -/
theorem mem_keepForPath (arts : List Artifact) (keep : Nat) (q : String)
    (a : Artifact) (ha : a ∈ keepForPath arts keep q) :
    a ∈ arts ∧ a.file_path = q := by
  simp only [keepForPath, List.mem_append] at ha
  have hsorted : a ∈ (arts.filter (fun a => a.file_path == q)).mergeSort
      (fun a b => b.version ≤ a.version) := by
    rcases ha with h | h
    · exact (List.mem_filter.mp h).1
    · exact (List.mem_filter.mp (List.mem_of_mem_take h)).1
  rw [List.mem_mergeSort, List.mem_filter] at hsorted
  exact ⟨hsorted.1, by simpa using hsorted.2⟩

/-- The retention body for a different path contributes no artifact that is
active at path `p`. -/
theorem keepForPath_filter_other (arts : List Artifact) (keep : Nat) (q p : String)
    (hqp : q ≠ p) :
    (keepForPath arts keep q).filter (pathActiveB p) = [] := by
  apply List.filter_eq_nil_iff.mpr
  intro a ha
  have := (mem_keepForPath arts keep q a ha).2
  simp [pathActiveB, this, hqp]

/-- The retention body for path `p` keeps exactly the artifacts active at
`p`, up to order. -/
theorem keepForPath_filter_self (arts : List Artifact) (keep : Nat) (p : String) :
    ((keepForPath arts keep p).filter (pathActiveB p)).Perm
      (arts.filter (pathActiveB p)) := by
  simp only [keepForPath, List.filter_append]
  have hB : ((((arts.filter (fun a => a.file_path == p)).mergeSort
      (fun a b => b.version ≤ a.version)).filter (fun v => !v.is_active)).take
        keep).filter (pathActiveB p) = [] := by
    apply List.filter_eq_nil_iff.mpr
    intro a ha
    have hmem := List.mem_of_mem_take ha
    have hinact := (List.mem_filter.mp hmem).2
    simp only [Bool.not_eq_true'] at hinact
    simp [pathActiveB, hinact]
  have hA : (((arts.filter (fun a => a.file_path == p)).mergeSort
      (fun a b => b.version ≤ a.version)).filter (fun v => v.is_active)).filter
        (pathActiveB p)
      = ((arts.filter (fun a => a.file_path == p)).mergeSort
          (fun a b => b.version ≤ a.version)).filter (fun v => v.is_active) := by
    apply List.filter_eq_self.mpr
    intro a ha
    have hact := (List.mem_filter.mp ha).2
    have hpath : a.file_path = p := by
      have := (List.mem_filter.mp ((List.mem_mergeSort).mp ((List.mem_filter.mp ha).1))).2
      simpa using this
    simp [pathActiveB, hpath, hact]
  rw [hA, hB, List.append_nil]
  have hperm := (List.mergeSort_perm (arts.filter (fun a => a.file_path == p))
    (fun a b => b.version ≤ a.version)).filter (fun v => v.is_active)
  refine hperm.trans ?_
  rw [List.filter_filter]
  apply List.Perm.of_eq
  apply List.filter_congr
  intro a _
  simp [pathActiveB, Bool.and_comm]

/-- Splitting a flat-map whose blocks are empty except possibly at `p`. -/
theorem flatMap_filter_single (f : String → List Artifact) (g : Artifact → Bool)
    (p : String) :
    ∀ (P : List String), (∀ q, q ≠ p → (f q).filter g = []) → P.Nodup →
      (P.flatMap f).filter g = if p ∈ P then (f p).filter g else [] := by
  intro P
  induction P with
  | nil => intro _ _; simp
  | cons q P ih =>
    intro hother hnd
    obtain ⟨hq, hndP⟩ := List.nodup_cons.mp hnd
    rw [List.flatMap_cons, List.filter_append, ih hother hndP]
    by_cases hqp : q = p
    · subst hqp
      rw [if_neg hq, if_pos (List.mem_cons_self q P), List.append_nil]
    · rw [hother q hqp, List.nil_append]
      by_cases hp : p ∈ P
      · rw [if_pos hp, if_pos (List.mem_cons_of_mem q hp)]
      · rw [if_neg hp, if_neg (by simp [hp, Ne.symm hqp])]

/-- Retention cleanup permutes (in particular, preserves) the set of
artifacts active at any given path. -/
theorem cleanup_filter_pathActive (arts : List Artifact) (keep : Nat) (p : String) :
    ((cleanupOldVersions arts keep).filter (pathActiveB p)).Perm
      (arts.filter (pathActiveB p)) := by
  unfold cleanupOldVersions
  rw [flatMap_filter_single (keepForPath arts keep) (pathActiveB p) p _
    (fun q hq => keepForPath_filter_other arts keep q p hq)
    (nodup_firstDedup _)]
  by_cases hp : p ∈ firstDedup (arts.map (fun a => a.file_path))
  · rw [if_pos hp]
    exact keepForPath_filter_self arts keep p
  · rw [if_neg hp]
    have hnone : arts.filter (pathActiveB p) = [] := by
      apply List.filter_eq_nil_iff.mpr
      intro a ha
      have : a.file_path ≠ p := by
        intro hc
        exact hp ((mem_firstDedup _ _).mpr (hc ▸ List.mem_map_of_mem (fun a => a.file_path) ha))
      simp [pathActiveB, this]
    rw [hnone]

/-- Post-state of a successful commit: the committed artifact is the single
active artifact at the candidate's path, and every other path's active set
is preserved up to order. -/
theorem commit_ok_state (arts : List Artifact) (cand : Artifact) (now : Nat)
    (post : List Artifact) (na : Artifact)
    (h : commit arts cand now = (post, .ok na)) :
    post.filter (pathActiveB cand.file_path) = [na]
    ∧ (∀ p, p ≠ cand.file_path →
        (post.filter (pathActiveB p)).Perm (arts.filter (pathActiveB p))) := by
  by_cases hv : authorityViolation (activeVersionsAt arts cand.file_path) cand = true
  · exfalso
    simp only [commit, hv, if_true, Prod.mk.injEq] at h
    exact absurd h.2 (by simp)
  · simp only [commit] at h
    rw [if_neg hv] at h
    have hpost := congrArg Prod.fst h
    have hna := congrArg Prod.snd h
    simp only at hpost hna
    rw [Except.ok.injEq] at hna
    set newVersion := if (activeVersionsAt arts cand.file_path).isEmpty then 1 else ((activeVersionsAt arts cand.file_path).map (fun a => a.version)).foldl max 0 + 1 with hnv
    set deactivated := arts.map (fun a => if a.file_path == cand.file_path && a.is_active then { a with is_active := false, updated_at := now } else a) with hdeac
    set newArt : Artifact := { cand with version := newVersion, is_active := true, updated_at := now } with hnewArt
    have hdeact_self : deactivated.filter (pathActiveB cand.file_path) = [] := by
      rw [hdeac, List.filter_map]
      have : (arts.filter ((pathActiveB cand.file_path) ∘ (fun a =>
          if a.file_path == cand.file_path && a.is_active then
            { a with is_active := false, updated_at := now }
          else a))) = [] := by
        apply List.filter_eq_nil_iff.mpr
        intro a _
        simp only [Function.comp_apply]
        by_cases hc : (a.file_path == cand.file_path && a.is_active) = true
        · rw [if_pos hc]
          simp [pathActiveB]
        · rw [if_neg hc]
          simp only [pathActiveB]
          exact fun hcc => hc hcc
      rw [this, List.map_nil]
    have hdeact_other : ∀ p, p ≠ cand.file_path →
        deactivated.filter (pathActiveB p) = arts.filter (pathActiveB p) := by
      intro p hp
      rw [hdeac, List.filter_map]
      have hfe : (arts.filter ((pathActiveB p) ∘ (fun a =>
          if a.file_path == cand.file_path && a.is_active then
            { a with is_active := false, updated_at := now }
          else a))) = arts.filter (pathActiveB p) := by
        apply List.filter_congr
        intro a _
        simp only [Function.comp_apply]
        by_cases hc : (a.file_path == cand.file_path && a.is_active) = true
        · rw [if_pos hc]
          have hpath : a.file_path = cand.file_path := by
            have := (Bool.and_eq_true _ _).mp hc
            exact beq_iff_eq.mp this.1
          simp [pathActiveB, hpath, Ne.symm hp]
        · rw [if_neg hc]
      rw [hfe]
      refine List.map_congr_left ?_ |>.trans (List.map_id _)
      intro a ha
      have hpa := (List.mem_filter.mp ha).2
      have hpath : a.file_path = p := by
        have := (Bool.and_eq_true _ _).mp hpa
        exact beq_iff_eq.mp this.1
      have hcond : ¬(a.file_path == cand.file_path && a.is_active) = true := by
        simp [hpath, hp]
      rw [if_neg hcond]
      rfl
    have hnew_self : pathActiveB cand.file_path newArt = true := by
      simp [pathActiveB, hnewArt]
    have happ_self : (deactivated ++ [newArt]).filter (pathActiveB cand.file_path)
        = [newArt] := by
      rw [List.filter_append, hdeact_self, List.nil_append]
      simp [hnew_self]
    have happ_other : ∀ p, p ≠ cand.file_path →
        (deactivated ++ [newArt]).filter (pathActiveB p) = arts.filter (pathActiveB p) := by
      intro p hp
      rw [List.filter_append, hdeact_other p hp]
      have : pathActiveB p newArt = false := by
        simp [pathActiveB, hnewArt, Ne.symm hp]
      simp [this]
    have hposteq : post = if (deactivated ++ [newArt]).length % 10 == 0
        then cleanupOldVersions (deactivated ++ [newArt]) 5
        else deactivated ++ [newArt] := hpost.symm
    subst hna
    constructor
    · rw [hposteq]
      by_cases hmod : ((deactivated ++ [newArt]).length % 10 == 0) = true
      · rw [if_pos hmod]
        have := (cleanup_filter_pathActive (deactivated ++ [newArt]) 5
          cand.file_path).trans (List.Perm.of_eq happ_self)
        exact List.perm_singleton.mp this
      · rw [if_neg hmod]
        exact happ_self
    · intro p hp
      rw [hposteq]
      by_cases hmod : ((deactivated ++ [newArt]).length % 10 == 0) = true
      · rw [if_pos hmod]
        exact (cleanup_filter_pathActive (deactivated ++ [newArt]) 5 p).trans
          (List.Perm.of_eq (happ_other p hp))
      · rw [if_neg hmod]
        exact List.Perm.of_eq (happ_other p hp)

/-- **C3** (`commit` / `cleanup_old_versions` preserve the invariant): from
any store with at most one active artifact per file path, a successful
commit and a retention-cleanup run both lead to a store with at most one
active artifact per file path. -/
theorem single_active_invariant_preserved (arts : List Artifact) (cand : Artifact)
    (now keep : Nat) (hinv : AtMostOneActivePerPath arts) :
    (∀ post na, commit arts cand now = (post, .ok na) → AtMostOneActivePerPath post)
    ∧ AtMostOneActivePerPath (cleanupOldVersions arts keep) := by
  constructor
  · intro post na h p
    obtain ⟨hcand, hother⟩ := commit_ok_state arts cand now post na h
    by_cases hp : p = cand.file_path
    · subst hp
      rw [hcand]
      exact le_refl 1
    · rw [(hother p hp).length_eq]
      exact hinv p
  · intro p
    rw [(cleanup_filter_pathActive arts keep p).length_eq]
    exact hinv p

/-- Witness for `single_active_invariant_preserved`: committing into the
empty store yields a single active artifact, a store satisfying the
invariant. -/
theorem single_active_invariant_preserved_witness :
    AtMostOneActivePerPath [sampleCand] :=
  (single_active_invariant_preserved [] sampleCand 0 5
    (fun p => by simp)).1 [sampleCand] sampleCand rfl

/-- The fold seed is a lower bound of a max-fold. -/
theorem le_foldl_max (L : List Nat) (b : Nat) : b ≤ L.foldl max b := by
  induction L generalizing b with
  | nil => simp
  | cons x xs ih =>
    simp only [List.foldl_cons]
    exact le_trans (le_max_left b x) (ih (max b x))

/-- Every member of a list bounds into its max-fold. -/
theorem mem_le_foldl_max (L : List Nat) (b : Nat) : ∀ x ∈ L, x ≤ L.foldl max b := by
  induction L generalizing b with
  | nil => simp
  | cons y ys ih =>
    intro x hx
    simp only [List.foldl_cons]
    rcases List.mem_cons.mp hx with h | h
    · subst h
      exact le_trans (le_max_right b x) (le_foldl_max ys (max b x))
    · exact ih (max b y) x h

/-- A max-fold is the seed or a member of the list. -/
theorem foldl_max_eq_or_mem (L : List Nat) (b : Nat) :
    L.foldl max b = b ∨ L.foldl max b ∈ L := by
  induction L generalizing b with
  | nil => simp
  | cons y ys ih =>
    simp only [List.foldl_cons]
    rcases ih (max b y) with h | h
    · rcases max_choice b y with hb | hy
      · left; rw [h, hb]
      · right; rw [h, hy]; exact List.mem_cons_self _ _
    · right; exact List.mem_cons_of_mem _ h

/-- **C4** (`StateRAGManager.commit`, versioning): a successful commit
assigns the candidate version `max(previously active versions) + 1`, or `1`
when nothing at the path was active — strictly above every previously
active version and exactly one above the maximal one, hence gapless — and
in the post-state the committed artifact is the single active artifact at
the path while every other artifact there is inactive. -/
theorem commit_version_assignment (arts : List Artifact) (cand : Artifact) (now : Nat)
    (post : List Artifact) (na : Artifact)
    (h : commit arts cand now = (post, .ok na)) :
    (activeVersionsAt arts cand.file_path = [] → na.version = 1)
    ∧ (∀ a ∈ activeVersionsAt arts cand.file_path, a.version < na.version)
    ∧ (activeVersionsAt arts cand.file_path ≠ [] →
        ∃ a ∈ activeVersionsAt arts cand.file_path, na.version = a.version + 1)
    ∧ na.is_active = true
    ∧ post.filter (pathActiveB cand.file_path) = [na]
    ∧ (∀ a ∈ post, a.file_path = cand.file_path → a ≠ na → a.is_active = false) := by
  have hstate := commit_ok_state arts cand now post na h
  by_cases hv : authorityViolation (activeVersionsAt arts cand.file_path) cand = true
  · exfalso
    simp only [commit, hv, if_true, Prod.mk.injEq] at h
    exact absurd h.2 (by simp)
  · simp only [commit] at h
    rw [if_neg hv] at h
    have hna := congrArg Prod.snd h
    simp only at hna
    rw [Except.ok.injEq] at hna
    have hver : na.version = (if (activeVersionsAt arts cand.file_path).isEmpty
        then 1
        else ((activeVersionsAt arts cand.file_path).map
          (fun a => a.version)).foldl max 0 + 1) := by
      rw [← hna]
    have hact : na.is_active = true := by rw [← hna]
    refine ⟨?_, ?_, ?_, hact, hstate.1, ?_⟩
    · intro hempty
      rw [hver, if_pos (by simp [hempty])]
    · intro a ha
      have hne : activeVersionsAt arts cand.file_path ≠ [] := List.ne_nil_of_mem ha
      rw [hver, if_neg (by simp [hne])]
      have := mem_le_foldl_max ((activeVersionsAt arts cand.file_path).map
        (fun a => a.version)) 0 a.version (List.mem_map_of_mem _ ha)
      omega
    · intro hne
      rcases foldl_max_eq_or_mem ((activeVersionsAt arts cand.file_path).map
          (fun x => x.version)) 0 with h0 | hm
      · obtain ⟨a, ha⟩ := List.exists_mem_of_ne_nil _ hne
        refine ⟨a, ha, ?_⟩
        have hle := mem_le_foldl_max ((activeVersionsAt arts cand.file_path).map
          (fun x => x.version)) 0 a.version (List.mem_map_of_mem _ ha)
        rw [hver, if_neg (by simp [hne])]
        omega
      · rw [List.mem_map] at hm
        obtain ⟨a, ha, hav⟩ := hm
        refine ⟨a, ha, ?_⟩
        rw [hver, if_neg (by simp [hne]), hav]
    · intro a hamem hapath hane
      by_contra hact2
      have hact3 : a.is_active = true := by
        revert hact2; cases a.is_active <;> simp
      have hmemf : a ∈ post.filter (pathActiveB cand.file_path) := by
        rw [List.mem_filter]
        exact ⟨hamem, by simp [pathActiveB, hapath, hact3]⟩
      rw [hstate.1] at hmemf
      simp only [List.mem_singleton] at hmemf
      exact hane hmemf

/-- Witness for `commit_version_assignment`: recommitting over an active
version-1 artifact produces version 2. -/
theorem commit_version_assignment_witness :
    sampleCand.version < (⟨"id-cand", .component, "App.tsx", "src/App.tsx",
      "new code", "tsx", 2, true, .ai_modified, [], some "react",
      some "tailwind", 0, 0⟩ : Artifact).version :=
  (commit_version_assignment [sampleCand] sampleCand 0
    [⟨"id-cand", .component, "App.tsx", "src/App.tsx", "new code", "tsx", 1,
      false, .ai_modified, [], some "react", some "tailwind", 0, 0⟩,
     ⟨"id-cand", .component, "App.tsx", "src/App.tsx", "new code", "tsx", 2,
      true, .ai_modified, [], some "react", some "tailwind", 0, 0⟩]
    ⟨"id-cand", .component, "App.tsx", "src/App.tsx", "new code", "tsx", 2,
      true, .ai_modified, [], some "react", some "tailwind", 0, 0⟩ rfl).2.1
    sampleCand (by decide)

/-- **C9** (`StateRAGManager.retrieve`, no user query): the returned
sequence is exactly the filtered and dependency-expanded active artifacts
sorted by file path in ascending lexical order and truncated to the
caller's limit (the source defaults `limit` to 10): it is sorted by path,
never longer than the limit, and — the embedding being a pure function —
identical calls give the identical sequence. -/
theorem retrieve_no_query_spec (storeArts : List Artifact)
    (scope : Option (List ArtifactType)) (file_paths : Option (List String))
    (limit : Nat) :
    retrieveNoQuery storeArts scope file_paths limit
      = ((retrieveCandidates storeArts scope file_paths).mergeSort
          (fun x y => decide (x.file_path ≤ y.file_path))).take limit
    ∧ List.Pairwise (fun x y : Artifact => x.file_path ≤ y.file_path)
        (retrieveNoQuery storeArts scope file_paths limit)
    ∧ (retrieveNoQuery storeArts scope file_paths limit).length ≤ limit
    ∧ retrieveNoQuery storeArts scope file_paths limit
        = retrieveNoQuery storeArts scope file_paths limit := by
  refine ⟨rfl, ?_, ?_, rfl⟩
  · have hsorted := @List.sorted_mergeSort Artifact
      (fun x y : Artifact => decide (x.file_path ≤ y.file_path))
      (fun a b c hab hbc => by
        simp only [decide_eq_true_eq] at *
        exact le_trans hab hbc)
      (fun a b => by
        simp only [Bool.or_eq_true, decide_eq_true_eq]
        exact le_total a.file_path b.file_path)
      (retrieveCandidates storeArts scope file_paths)
    have htake := List.Pairwise.sublist
      (List.take_sublist limit _) hsorted
    exact htake.imp (fun h => by simpa using h)
  · unfold retrieveNoQuery
    rw [List.length_take]
    exact min_le_left _ _

/-- Inverting a dict hit: some entry carries the key and value. -/
theorem pyDictGet_some_mem {α : Type} (d : List (String × α)) (k : String) (v : α)
    (h : pyDictGet d k = some v) : ∃ kv ∈ d, kv.1 = k ∧ kv.2 = v := by
  simp only [pyDictGet, Option.map_eq_some'] at h
  obtain ⟨kv, hfind, hv⟩ := h
  have h1 := List.find?_some hfind
  have h2 := List.mem_of_find?_eq_some hfind
  rw [List.mem_reverse] at h2
  exact ⟨kv, h2, beq_iff_eq.mp h1, hv⟩

/-- With duplicate-free keys, a key determines its value. -/
theorem pyDict_nodup_key_unique {α : Type} (d : List (String × α))
    (hnd : (d.map Prod.fst).Nodup) (k : String) (v v2 : α)
    (h1 : (k, v) ∈ d) (h2 : (k, v2) ∈ d) : v = v2 := by
  induction d with
  | nil => cases h1
  | cons kv d ih =>
    rw [List.map_cons, List.nodup_cons] at hnd
    rcases List.mem_cons.mp h1 with e1 | m1 <;> rcases List.mem_cons.mp h2 with e2 | m2
    · rw [← e1] at e2
      exact (Prod.mk.injEq .. ▸ e2).2.symm
    · exfalso
      apply hnd.1
      have hk1 : kv.1 = k := by rw [← e1]
      rw [hk1]
      exact List.mem_map.mpr ⟨(k, v2), m2, rfl⟩
    · exfalso
      apply hnd.1
      have hk1 : kv.1 = k := by rw [← e2]
      rw [hk1]
      exact List.mem_map.mpr ⟨(k, v), m1, rfl⟩
    · exact ih hnd.2 m1 m2

/-- A key is in a dict exactly when some entry carries it. -/
theorem pyDictHasKey_iff_exists {α : Type} (d : List (String × α)) (k : String) :
    pyDictHasKey d k = true ↔ ∃ v, (k, v) ∈ d := by
  simp only [pyDictHasKey, List.any_eq_true]
  constructor
  · rintro ⟨kv, hm, hb⟩
    refine ⟨kv.2, ?_⟩
    have hk : kv.1 = k := beq_iff_eq.mp hb
    rw [← hk]
    exact hm
  · rintro ⟨v, hm⟩
    exact ⟨(k, v), hm, by simp⟩

/-- A dict hit exists exactly when the key is present. -/
theorem pyDictHasKey_iff_get {α : Type} (d : List (String × α)) (k : String) :
    pyDictHasKey d k = true ↔ (pyDictGet d k).isSome = true := by
  unfold pyDictGet
  cases hfind : d.reverse.find? (fun kv => kv.1 == k) with
  | none =>
    rw [List.find?_eq_none] at hfind
    simp only [Option.map_none', Option.isSome_none]
    constructor
    · intro h
      obtain ⟨kv, hm, hb⟩ := List.any_eq_true.mp h
      exact absurd hb (hfind kv (List.mem_reverse.mpr hm))
    · intro h
      cases h
  | some kv =>
    simp only [Option.map_some', Option.isSome_some]
    constructor
    · intro _
      trivial
    · intro _
      have hp := List.find?_some hfind
      have hm := List.mem_of_find?_eq_some hfind
      rw [List.mem_reverse] at hm
      exact List.any_eq_true.mpr ⟨kv, hm, hp⟩

/-- With duplicate-free keys, dict lookup and entry membership agree. -/
theorem pyDictGet_eq_some_iff {α : Type} (d : List (String × α))
    (hnd : (d.map Prod.fst).Nodup) (k : String) (v : α) :
    pyDictGet d k = some v ↔ (k, v) ∈ d := by
  constructor
  · intro h
    obtain ⟨kv, hm, hk, hv⟩ := pyDictGet_some_mem d k v h
    have : kv = (k, v) := Prod.ext hk hv
    exact this ▸ hm
  · intro hm
    have hsome : (pyDictGet d k).isSome = true := by
      rw [← pyDictHasKey_iff_get]
      exact (pyDictHasKey_iff_exists d k).mpr ⟨v, hm⟩
    obtain ⟨v2, hv2⟩ := Option.isSome_iff_exists.mp hsome
    obtain ⟨kv, hm2, hk2, hvv2⟩ := pyDictGet_some_mem d k v2 hv2
    have hkv : kv = (k, v2) := Prod.ext hk2 hvv2
    rw [hv2]
    congr 1
    exact pyDict_nodup_key_unique d hnd k v2 v (hkv ▸ hm2) hm

/-- A key is absent exactly when no entry carries it. -/
theorem pyDictHasKey_eq_false_iff {α : Type} (d : List (String × α)) (k : String) :
    pyDictHasKey d k = false ↔ k ∉ d.map Prod.fst := by
  rw [← Bool.not_eq_true, pyDictHasKey_iff_exists]
  constructor
  · intro h hk
    obtain ⟨kv, hkv, hfst⟩ := List.mem_map.mp hk
    apply h
    refine ⟨kv.2, ?_⟩
    rw [← hfst]
    exact hkv
  · intro h hex
    obtain ⟨v, hv⟩ := hex
    exact h (List.mem_map.mpr ⟨(k, v), hv, rfl⟩)

/-- Key membership over an appended dict. -/
theorem pyDictHasKey_append {α : Type} (d e : List (String × α)) (k : String) :
    pyDictHasKey (d ++ e) k = (pyDictHasKey d k || pyDictHasKey e k) := by
  simp [pyDictHasKey, List.any_append]

/-- With duplicate-free artifact ids, the initial `result` dict of
`_expand_dependencies` is the seed list paired with its ids. -/
theorem pyDictOfList_eq_map (l : List Artifact)
    (hnd : (l.map (fun a => a.artifact_id)).Nodup) :
    pyDictOfList l = l.map (fun a => (a.artifact_id, a)) := by
  have key : ∀ (l2 : List Artifact) (d : List (String × Artifact)),
      (∀ a ∈ l2, pyDictHasKey d a.artifact_id = false) →
      (l2.map (fun a => a.artifact_id)).Nodup →
      l2.foldl (fun d a => pyDictInsert d a.artifact_id a) d
        = d ++ l2.map (fun a => (a.artifact_id, a)) := by
    intro l2
    induction l2 with
    | nil =>
      intro d _ _
      simp
    | cons a l2 ih =>
      intro d hfresh hnd2
      rw [List.map_cons, List.nodup_cons] at hnd2
      rw [List.foldl_cons]
      have hins : pyDictInsert d a.artifact_id a = d ++ [(a.artifact_id, a)] := by
        unfold pyDictInsert
        rw [if_neg]
        intro hc
        have hf := hfresh a (List.mem_cons_self a l2)
        rw [show (d.any fun kv => kv.1 == a.artifact_id)
          = pyDictHasKey d a.artifact_id from rfl] at hc
        rw [hf] at hc
        cases hc
      have hfresh2 : ∀ b ∈ l2, pyDictHasKey (d ++ [(a.artifact_id, a)]) b.artifact_id
          = false := by
        intro b hb
        rw [pyDictHasKey_append]
        have h1 : pyDictHasKey d b.artifact_id = false :=
          hfresh b (List.mem_cons_of_mem a hb)
        have h2 : pyDictHasKey [(a.artifact_id, a)] b.artifact_id = false := by
          rw [pyDictHasKey_eq_false_iff]
          intro hc
          apply hnd2.1
          simp only [List.map_cons, List.map_nil, List.mem_singleton] at hc
          rw [← hc]
          exact List.mem_map.mpr ⟨b, hb, rfl⟩
        rw [h1, h2]
        rfl
      rw [hins, ih (d ++ [(a.artifact_id, a)]) hfresh2 hnd2.2]
      simp
  have hkey := key l [] (fun a _ => rfl) hnd
  simpa [pyDictOfList] using hkey

/-- Effect of the inner `for dep_id in current.dependencies` loop: it
appends to `result` exactly the fresh `lookup` hits among `deps`, enqueues
those same artifacts in the same order, keeps keys duplicate-free, and
afterwards every `lookup`-resolvable member of `deps` is a `result` key. -/
theorem processDeps_spec (lookup : List (String × Artifact)) :
    ∀ (deps : List String) (result : List (String × Artifact)) (queue : List Artifact),
      (result.map Prod.fst).Nodup →
      ∃ ext : List (String × Artifact),
        (processDeps lookup deps result queue).1 = result ++ ext
        ∧ (processDeps lookup deps result queue).2 = queue ++ ext.map Prod.snd
        ∧ (∀ kv ∈ ext, pyDictGet lookup kv.1 = some kv.2 ∧ kv.1 ∈ deps
            ∧ pyDictHasKey result kv.1 = false)
        ∧ ((result ++ ext).map Prod.fst).Nodup
        ∧ (∀ x ∈ deps, pyDictHasKey lookup x = true →
            pyDictHasKey (result ++ ext) x = true) := by
  intro deps
  induction deps with
  | nil =>
    intro result queue hnd
    exact ⟨[], by simp [processDeps], by simp [processDeps], by simp,
      by simpa using hnd, by simp⟩
  | cons d rest ih =>
    intro result queue hnd
    cases hget : pyDictGet lookup d with
    | none =>
      obtain ⟨ext, h1, h2, h3, h4, h5⟩ := ih result queue hnd
      have heq : processDeps lookup (d :: rest) result queue
          = processDeps lookup rest result queue := by
        simp [processDeps, hget]
      rw [heq]
      refine ⟨ext, h1, h2, ?_, h4, ?_⟩
      · intro kv hkv
        obtain ⟨hg, hd, hf⟩ := h3 kv hkv
        exact ⟨hg, List.mem_cons_of_mem d hd, hf⟩
      · intro x hx hlk
        rcases List.mem_cons.mp hx with e | m
        · exfalso
          subst e
          rw [pyDictHasKey_iff_get, hget] at hlk
          cases hlk
        · exact h5 x m hlk
    | some dep =>
      by_cases hk : pyDictHasKey result d = true
      · obtain ⟨ext, h1, h2, h3, h4, h5⟩ := ih result queue hnd
        have heq : processDeps lookup (d :: rest) result queue
            = processDeps lookup rest result queue := by
          simp [processDeps, hget, hk]
        rw [heq]
        refine ⟨ext, h1, h2, ?_, h4, ?_⟩
        · intro kv hkv
          obtain ⟨hg, hd, hf⟩ := h3 kv hkv
          exact ⟨hg, List.mem_cons_of_mem d hd, hf⟩
        · intro x hx hlk
          rcases List.mem_cons.mp hx with e | m
          · subst e
            rw [pyDictHasKey_append, hk]
            rfl
          · exact h5 x m hlk
      · have hkf : pyDictHasKey result d = false := by
          revert hk; cases pyDictHasKey result d <;> simp
        have hins : pyDictInsert result d dep = result ++ [(d, dep)] := by
          unfold pyDictInsert
          rw [if_neg]
          intro hc
          rw [show (result.any fun kv => kv.1 == d) = pyDictHasKey result d from rfl,
            hkf] at hc
          cases hc
        have hnd2 : ((result ++ [(d, dep)]).map Prod.fst).Nodup := by
          rw [List.map_append]
          refine ((List.perm_append_singleton _ _).nodup_iff).mpr ?_
          rw [List.nodup_cons]
          exact ⟨(pyDictHasKey_eq_false_iff result d).mp hkf, hnd⟩
        obtain ⟨ext, h1, h2, h3, h4, h5⟩ :=
          ih (result ++ [(d, dep)]) (queue ++ [dep]) hnd2
        have heq : processDeps lookup (d :: rest) result queue
            = processDeps lookup rest (result ++ [(d, dep)]) (queue ++ [dep]) := by
          simp only [processDeps, hget]
          rw [if_neg hk, hins]
        rw [heq]
        refine ⟨(d, dep) :: ext, ?_, ?_, ?_, ?_, ?_⟩
        · rw [h1, List.append_assoc]
          rfl
        · rw [h2, List.append_assoc]
          rfl
        · intro kv hkv
          rcases List.mem_cons.mp hkv with e | m
          · subst e
            exact ⟨hget, List.mem_cons_self _ _, hkf⟩
          · obtain ⟨hg, hd, hf⟩ := h3 kv m
            refine ⟨hg, List.mem_cons_of_mem d hd, ?_⟩
            rw [pyDictHasKey_append] at hf
            exact (Bool.or_eq_false_iff.mp hf).1
        · rw [show result ++ (d, dep) :: ext = (result ++ [(d, dep)]) ++ ext by
            rw [List.append_assoc]; rfl]
          exact h4
        · intro x hx hlk
          rcases List.mem_cons.mp hx with e | m
          · subst e
            apply (pyDictHasKey_iff_exists _ _).mpr
            exact ⟨dep, by simp⟩
          · have := h5 x m hlk
            rw [show result ++ (d, dep) :: ext = (result ++ [(d, dep)]) ++ ext by
              rw [List.append_assoc]; rfl]
            exact this

/-- Loop-invariant proof for the `while queue:` loop of
`_expand_dependencies`: from a sound, duplicate-free state whose entries
are covered by the queue or the visited set and dependency-closed over
visited ids, the loop returns a sound, duplicate-free, dependency-closed
dict extending `result`. -/
theorem expandLoop_spec (lookup : List (String × Artifact)) (seeds : List Artifact)
    (hlid : ∀ kv ∈ lookup, kv.2.artifact_id = kv.1)
    (hseed : ∀ s ∈ seeds, pyDictGet lookup s.artifact_id = some s) :
    ∀ (visited : List String) (result : List (String × Artifact)) (queue : List Artifact),
      (∀ kv ∈ result, kv.1 = kv.2.artifact_id
        ∧ Reachable lookup (seeds.map (fun a => a.artifact_id)) kv.1
        ∧ ((∃ s ∈ seeds, kv = (s.artifact_id, s)) ∨ pyDictGet lookup kv.1 = some kv.2)) →
      (result.map Prod.fst).Nodup →
      (∀ a ∈ queue, (a.artifact_id, a) ∈ result) →
      (∀ kv ∈ result, kv.1 ∈ visited ∨ ∃ a ∈ queue, a.artifact_id = kv.1) →
      (∀ k ∈ visited, ∀ v, (k, v) ∈ result →
        ∀ d ∈ v.dependencies, pyDictHasKey lookup d = true →
          pyDictHasKey result d = true) →
      (∀ k ∈ visited, pyDictHasKey result k = true) →
      (∀ kv ∈ expandLoop lookup visited result queue, kv.1 = kv.2.artifact_id
        ∧ Reachable lookup (seeds.map (fun a => a.artifact_id)) kv.1
        ∧ ((∃ s ∈ seeds, kv = (s.artifact_id, s)) ∨ pyDictGet lookup kv.1 = some kv.2))
      ∧ ((expandLoop lookup visited result queue).map Prod.fst).Nodup
      ∧ (∀ kv ∈ result, kv ∈ expandLoop lookup visited result queue)
      ∧ (∀ kv ∈ expandLoop lookup visited result queue,
          ∀ d ∈ kv.2.dependencies, pyDictHasKey lookup d = true →
            pyDictHasKey (expandLoop lookup visited result queue) d = true) := by
  intro visited result queue
  induction visited, result, queue using expandLoop.induct lookup with
  | case1 visited result =>
    intro hI1 hI2 _hI3 hI4 hI5 _hI6
    have hloop : expandLoop lookup visited result [] = result := by
      rw [expandLoop]
    rw [hloop]
    refine ⟨hI1, hI2, fun kv h => h, ?_⟩
    intro kv hkv d hd hlk
    have hvis : kv.1 ∈ visited := by
      rcases hI4 kv hkv with h | ⟨a, ha, _⟩
      · exact h
      · cases ha
    exact hI5 kv.1 hvis kv.2 hkv d hd hlk
  | case2 visited result current rest hcont ih =>
    intro hI1 hI2 hI3 hI4 hI5 hI6
    have hloop : expandLoop lookup visited result (current :: rest)
        = expandLoop lookup visited result rest := by
      rw [expandLoop, if_pos hcont]
    rw [hloop]
    have hcv : current.artifact_id ∈ visited := List.elem_iff.mp hcont
    refine ih hI1 hI2 (fun a ha => hI3 a (List.mem_cons_of_mem current ha)) ?_ hI5 hI6
    intro kv hkv
    rcases hI4 kv hkv with h | ⟨a, ha, haid⟩
    · exact Or.inl h
    · rcases List.mem_cons.mp ha with e | m
      · subst e
        exact Or.inl (haid ▸ hcv)
      · exact Or.inr ⟨a, m, haid⟩
  | case3 visited result current rest hncont ih =>
    intro hI1 hI2 hI3 hI4 hI5 hI6
    have hloop : expandLoop lookup visited result (current :: rest)
        = expandLoop lookup (current.artifact_id :: visited)
            (processDeps lookup current.dependencies result rest).1
            (processDeps lookup current.dependencies result rest).2 := by
      rw [expandLoop, if_neg hncont]
    have hcur_mem : (current.artifact_id, current) ∈ result :=
      hI3 current (List.mem_cons_self current rest)
    have hreach_cur : Reachable lookup (seeds.map (fun a => a.artifact_id))
        current.artifact_id := (hI1 _ hcur_mem).2.1
    have hcurget : pyDictGet lookup current.artifact_id = some current := by
      rcases (hI1 _ hcur_mem).2.2 with ⟨s, hs, hpair⟩ | hg
      · have h2 : current = s := congrArg Prod.snd hpair
        subst h2
        exact hseed _ hs
      · exact hg
    obtain ⟨ext, h1, h2, h3, h4, h5⟩ :=
      processDeps_spec lookup current.dependencies result rest hI2
    have hmono : ∀ k, pyDictHasKey result k = true →
        pyDictHasKey (result ++ ext) k = true := by
      intro k hk
      rw [pyDictHasKey_append, hk]
      rfl
    have hext_id : ∀ kv ∈ ext, kv.1 = kv.2.artifact_id := by
      intro kv hkv
      obtain ⟨hg, _, _⟩ := h3 kv hkv
      obtain ⟨kv2, hm2, hk2, hv2⟩ := pyDictGet_some_mem lookup kv.1 kv.2 hg
      rw [← hk2, ← hv2]
      exact (hlid kv2 hm2).symm
    have hI1n : ∀ kv ∈ (processDeps lookup current.dependencies result rest).1,
        kv.1 = kv.2.artifact_id
        ∧ Reachable lookup (seeds.map (fun a => a.artifact_id)) kv.1
        ∧ ((∃ s ∈ seeds, kv = (s.artifact_id, s)) ∨ pyDictGet lookup kv.1 = some kv.2) := by
      rw [h1]
      intro kv hkv
      rcases List.mem_append.mp hkv with hm | hm
      · exact hI1 kv hm
      · obtain ⟨hg, hdep, _⟩ := h3 kv hm
        refine ⟨hext_id kv hm, ?_, Or.inr hg⟩
        exact Reachable.step current.artifact_id kv.1 current hreach_cur hcurget hdep
          (by rw [hg]; rfl)
    have hI2n : ((processDeps lookup current.dependencies result rest).1.map
        Prod.fst).Nodup := by
      rw [h1]
      exact h4
    have hI3n : ∀ a ∈ (processDeps lookup current.dependencies result rest).2,
        (a.artifact_id, a) ∈ (processDeps lookup current.dependencies result rest).1 := by
      rw [h1, h2]
      intro a ha
      rcases List.mem_append.mp ha with hm | hm
      · exact List.mem_append_left ext (hI3 a (List.mem_cons_of_mem current hm))
      · obtain ⟨kv, hkv, hsnd⟩ := List.mem_map.mp hm
        have hid := hext_id kv hkv
        have : (a.artifact_id, a) = kv := by
          rw [← hsnd, ← hid]
        rw [this]
        exact List.mem_append_right result hkv
    have hI4n : ∀ kv ∈ (processDeps lookup current.dependencies result rest).1,
        kv.1 ∈ current.artifact_id :: visited
        ∨ ∃ a ∈ (processDeps lookup current.dependencies result rest).2,
            a.artifact_id = kv.1 := by
      rw [h1, h2]
      intro kv hkv
      rcases List.mem_append.mp hkv with hm | hm
      · rcases hI4 kv hm with h | ⟨a, ha, haid⟩
        · exact Or.inl (List.mem_cons_of_mem _ h)
        · rcases List.mem_cons.mp ha with e | m
          · subst e
            exact Or.inl (haid ▸ List.mem_cons_self _ _)
          · exact Or.inr ⟨a, List.mem_append_left _ m, haid⟩
      · refine Or.inr ⟨kv.2, List.mem_append_right _ (List.mem_map.mpr ⟨kv, hm, rfl⟩),
          (hext_id kv hm).symm⟩
    have hI5n : ∀ k ∈ current.artifact_id :: visited,
        ∀ v, (k, v) ∈ (processDeps lookup current.dependencies result rest).1 →
        ∀ d ∈ v.dependencies, pyDictHasKey lookup d = true →
          pyDictHasKey (processDeps lookup current.dependencies result rest).1 d
            = true := by
      rw [h1]
      intro k hk v hv d hd hlk
      rcases List.mem_cons.mp hk with e | m
      · subst e
        rcases List.mem_append.mp hv with hm | hm
        · have hveq : v = current :=
            pyDict_nodup_key_unique result hI2 current.artifact_id v current hm hcur_mem
          subst hveq
          exact h5 d hd hlk
        · exfalso
          obtain ⟨_, _, hf⟩ := h3 _ hm
          have : pyDictHasKey result current.artifact_id = true :=
            (pyDictHasKey_iff_exists _ _).mpr ⟨current, hcur_mem⟩
          rw [this] at hf
          cases hf
      · rcases List.mem_append.mp hv with hm | hm
        · exact hmono d (hI5 k m v hm d hd hlk)
        · exfalso
          obtain ⟨_, _, hf⟩ := h3 _ hm
          have : pyDictHasKey result k = true := hI6 k m
          rw [this] at hf
          cases hf
    have hI6n : ∀ k ∈ current.artifact_id :: visited,
        pyDictHasKey (processDeps lookup current.dependencies result rest).1 k
          = true := by
      rw [h1]
      intro k hk
      rcases List.mem_cons.mp hk with e | m
      · subst e
        exact hmono _ ((pyDictHasKey_iff_exists _ _).mpr ⟨current, hcur_mem⟩)
      · exact hmono _ (hI6 k m)
    obtain ⟨c1, c2, c3, c4⟩ := ih hI1n hI2n hI3n hI4n hI5n hI6n
    rw [hloop]
    refine ⟨c1, c2, ?_, c4⟩
    intro kv hkv
    apply c3
    rw [h1]
    exact List.mem_append_left ext hkv

/-- **C5** (`StateRAGManager._expand_dependencies`): for any store whose
active artifacts carry distinct ids and any seed set drawn from them,
dependency expansion terminates (the loop is well-founded by construction)
and returns, without duplicates, exactly the artifacts whose id is
reachable from the seed ids through dependency references resolved against
the active-artifact lookup — the seed set plus the transitive closure of
active dependencies, references to missing or inactive artifacts being
skipped without error.  In particular, for the two-element cycle A→B, B→A
seeded with A, the result is exactly `[A, B]`. -/
theorem expandDependencies_closure :
    (∀ (storeArts seeds : List Artifact),
      ((activeLookupById storeArts).map Prod.fst).Nodup →
      (seeds.map (fun a => a.artifact_id)).Nodup →
      (∀ s ∈ seeds, pyDictGet (activeLookupById storeArts) s.artifact_id = some s) →
      ((expandDependencies storeArts seeds).map (fun a => a.artifact_id)).Nodup
      ∧ ∀ a, a ∈ expandDependencies storeArts seeds ↔
          (Reachable (activeLookupById storeArts)
              (seeds.map (fun x => x.artifact_id)) a.artifact_id
            ∧ pyDictGet (activeLookupById storeArts) a.artifact_id = some a))
    ∧ expandDependencies [cycA, cycB] [cycA] = [cycA, cycB] := by
  constructor
  · intro storeArts seeds hlk hsd hseed
    set lookup := activeLookupById storeArts with hlookup
    have hlid : ∀ kv ∈ lookup, kv.2.artifact_id = kv.1 := by
      intro kv hkv
      rw [hlookup] at hkv
      unfold activeLookupById at hkv
      obtain ⟨a, _, hpair⟩ := List.mem_map.mp hkv
      rw [← hpair]
    have hinit : pyDictOfList seeds = seeds.map (fun a => (a.artifact_id, a)) :=
      pyDictOfList_eq_map seeds hsd
    have hI1 : ∀ kv ∈ seeds.map (fun a => (a.artifact_id, a)),
        kv.1 = kv.2.artifact_id
        ∧ Reachable lookup (seeds.map (fun a => a.artifact_id)) kv.1
        ∧ ((∃ s ∈ seeds, kv = (s.artifact_id, s)) ∨ pyDictGet lookup kv.1 = some kv.2) := by
      intro kv hkv
      obtain ⟨s, hs, hpair⟩ := List.mem_map.mp hkv
      refine ⟨by rw [← hpair], ?_, Or.inl ⟨s, hs, hpair.symm⟩⟩
      rw [← hpair]
      exact Reachable.seed s.artifact_id (List.mem_map.mpr ⟨s, hs, rfl⟩)
    have hI2 : ((seeds.map (fun a => (a.artifact_id, a))).map Prod.fst).Nodup := by
      rw [List.map_map]
      exact hsd
    have hI3 : ∀ a ∈ seeds,
        (a.artifact_id, a) ∈ seeds.map (fun a => (a.artifact_id, a)) := by
      intro a ha
      exact List.mem_map.mpr ⟨a, ha, rfl⟩
    have hI4 : ∀ kv ∈ seeds.map (fun a => (a.artifact_id, a)),
        kv.1 ∈ ([] : List String) ∨ ∃ a ∈ seeds, a.artifact_id = kv.1 := by
      intro kv hkv
      obtain ⟨s, hs, hpair⟩ := List.mem_map.mp hkv
      exact Or.inr ⟨s, hs, by rw [← hpair]⟩
    obtain ⟨c1, c2, c3, c4⟩ := expandLoop_spec lookup seeds hlid hseed []
      (seeds.map (fun a => (a.artifact_id, a))) seeds hI1 hI2 hI3 hI4
      (fun k hk => absurd hk (List.not_mem_nil k))
      (fun k hk => absurd hk (List.not_mem_nil k))
    have hexp : expandDependencies storeArts seeds
        = (expandLoop lookup [] (seeds.map (fun a => (a.artifact_id, a))) seeds).map
            Prod.snd := by
      unfold expandDependencies
      rw [← hlookup, hinit]
    set R := expandLoop lookup [] (seeds.map (fun a => (a.artifact_id, a))) seeds
      with hR
    constructor
    · rw [hexp, List.map_map]
      have hcongr : R.map ((fun a => a.artifact_id) ∘ Prod.snd) = R.map Prod.fst := by
        apply List.map_congr_left
        intro kv hkv
        exact ((c1 kv hkv).1).symm
      rw [hcongr]
      exact c2
    · intro a
      rw [hexp]
      constructor
      · intro ha
        obtain ⟨kv, hkv, hsnd⟩ := List.mem_map.mp ha
        obtain ⟨hid, hreach, hdisj⟩ := c1 kv hkv
        have haid : a.artifact_id = kv.1 := by
          rw [← hsnd, ← hid]
        refine ⟨by rw [haid]; exact hreach, ?_⟩
        rcases hdisj with ⟨s, hs, hpair⟩ | hg
        · have hva : a = s := by
            rw [← hsnd, hpair]
          rw [hva]
          exact hseed s hs
        · rw [haid, ← hsnd]
          exact hg
      · rintro ⟨hreach, hget⟩
        have hkeys : ∀ i, Reachable lookup (seeds.map (fun x => x.artifact_id)) i →
            pyDictHasKey R i = true := by
          intro i hi
          induction hi with
          | seed j hj =>
            obtain ⟨s, hs, hid⟩ := List.mem_map.mp hj
            apply (pyDictHasKey_iff_exists _ _).mpr
            refine ⟨s, ?_⟩
            rw [← hid]
            exact c3 _ (hI3 s hs)
          | step j d av hrj hgj hd hds ihj =>
            obtain ⟨v, hv⟩ := (pyDictHasKey_iff_exists _ _).mp ihj
            obtain ⟨hid, _, hdisj⟩ := c1 (j, v) hv
            have hveq : v = av := by
              rcases hdisj with ⟨s, hs, hpair⟩ | hg
              · have hvs : v = s := congrArg Prod.snd hpair
                have hjs : j = s.artifact_id := congrArg Prod.fst hpair
                have h6 := hseed s hs
                rw [← hjs, hgj] at h6
                injection h6 with h7
                rw [hvs, h7]
              · rw [hgj] at hg
                injection hg with h7
                exact h7.symm
            have := c4 (j, v) hv d (by rw [hveq]; exact hd)
              ((pyDictHasKey_iff_get lookup d).mpr hds)
            exact this
        obtain ⟨v, hv⟩ := (pyDictHasKey_iff_exists _ _).mp
          (hkeys a.artifact_id hreach)
        obtain ⟨hid, _, hdisj⟩ := c1 (a.artifact_id, v) hv
        have hva : v = a := by
          rcases hdisj with ⟨s, hs, hpair⟩ | hg
          · have hvs : v = s := congrArg Prod.snd hpair
            have hjs : a.artifact_id = s.artifact_id := congrArg Prod.fst hpair
            have h6 := hseed s hs
            rw [← hjs, hget] at h6
            injection h6 with h7
            rw [hvs, ← h7]
          · rw [hget] at hg
            injection hg with h7
            exact h7.symm
        rw [hva] at hv
        exact List.mem_map.mpr ⟨(a.artifact_id, a), hv, rfl⟩
  · simp only [expandDependencies, activeLookupById, pyDictOfList]
    rw [expandLoop]
    simp +decide [processDeps, pyDictGet, pyDictHasKey, pyDictInsert, cycA, cycB]
    rw [expandLoop]
    simp +decide [processDeps, pyDictGet, pyDictHasKey, pyDictInsert, cycA, cycB]
    rw [expandLoop]
    simp +decide [cycA, cycB]

/-- Witness for `expandDependencies_closure`: the two-element dependency
cycle seeded with `A` satisfies the hypotheses, and its expansion carries
no duplicate ids. -/
theorem expandDependencies_closure_witness :
    ((expandDependencies [cycA, cycB] [cycA]).map (fun a => a.artifact_id)).Nodup :=
  (expandDependencies_closure.1 [cycA, cycB] [cycA] (by decide) (by decide)
    (by decide)).1

end StateRag